import Mathlib

/-!
# android_scanner: sensor fusion, motion normalisation and coverage sweeping

A shallow embedding of `scanner/src/Logger.cpp`, `scanner/src/motionDetector.cpp`
and `scanner/src/sweeper.cpp`.

Conventions of the embedding:

* `float` and `double` values are exact rationals (`ℚ`);
* a `std::vector` is a `List`; reading `v[k]` with `k` outside the vector, and
  `erase(begin())` on an empty vector, have no defined result in the source and
  make the embedded function return `none`;
* members of a class are fields of a state structure, a member function maps a
  state to the next state;
* configuration members declared in the headers (`locBufLen`, `ornBufLen`,
  `objMaxSpeed`, ...) are fields of the state and range over all values.
-/

namespace Scanner

/-! ## Logger.cpp : data model -/

/-- A location sample (`Location` of `Logger.h`): the fields used by `Logger.cpp`. -/
structure Location where
  lat : ℚ
  lng : ℚ
  alt : ℚ
  time : ℚ
  deriving DecidableEq, Repr

/-- An orientation sample (`Orientation` of `Logger.h`). -/
structure Orientation where
  roll : ℚ
  pitch : ℚ
  azimuth : ℚ
  time : ℚ
  deriving DecidableEq, Repr

/-- An image matrix (`cv::Mat`): its dimensions and its entries, row-major with
the channels of one pixel next to each other. -/
structure Mat where
  rows : Nat
  cols : Nat
  channels : Nat
  data : List ℚ
  deriving DecidableEq, Repr

/-- The most recent frame and its capture time (`img` of `Logger`). -/
structure Image where
  image : Mat
  time : ℚ
  deriving DecidableEq, Repr

/-- The fused image record returned by `Logger::getImageSet`. -/
structure ImageSet where
  image : Mat
  lat : ℚ
  lng : ℚ
  alt : ℚ
  roll : ℚ
  pitch : ℚ
  azimuth : ℚ
  time : ℚ
  deriving DecidableEq, Repr

/-- Modelled from the spec: the value of a default-constructed `Location`
(`Location location;`), whose declaration is in `Logger.h`; the specification
gives it zero-valued fields. -/
def Location.zero : Location := ⟨0, 0, 0, 0⟩

/-- Modelled from the spec: the value of a default-constructed `Orientation`
(`Orientation orientation;`), declared in `Logger.h`; zero-valued fields. -/
def Orientation.zero : Orientation := ⟨0, 0, 0, 0⟩

/-- The empty matrix (`cv::Mat()`). -/
def Mat.blank : Mat := ⟨0, 0, 0, []⟩

/-- The members of `Logger` that `Logger.cpp` reads and writes. -/
structure Logger where
  img : Image
  loc : Location
  orn : Orientation
  refLoc : Location
  locationBuffer : List Location
  orientationBuffer : List Orientation
  locBufLen : Nat
  ornBufLen : Nat
  deriving DecidableEq, Repr

/-- Modelled from the spec: the initial `Logger` state (its constructor is in
`Logger.h`): both buffers empty and the reference location zero-initialised,
for the given buffer capacities. -/
def Logger.init (locBufLen ornBufLen : Nat) : Logger :=
  { img := ⟨Mat.blank, 0⟩
    loc := Location.zero
    orn := Orientation.zero
    refLoc := Location.zero
    locationBuffer := []
    orientationBuffer := []
    locBufLen := locBufLen
    ornBufLen := ornBufLen }

/-! ## Logger.cpp : operations -/

/-- The body shared by `bufferLocation` and `bufferOrientation`: append while
the vector is shorter than the capacity, otherwise erase the first element and
append.  `erase(begin())` on an empty vector has no defined result. -/
def bufferPush {α : Type} (cap : Nat) (buf : List α) (x : α) : Option (List α) :=
  if buf.length < cap then
    some (buf ++ [x])
  else
    match buf with
    | [] => none
    | _ :: rest => some (rest ++ [x])

/-- `Logger::bufferLocation`. -/
def Logger.bufferLocation (s : Logger) (loc : Location) : Option Logger :=
  (bufferPush s.locBufLen s.locationBuffer loc).map
    fun b => { s with locationBuffer := b }

/-- `Logger::bufferOrientation`. -/
def Logger.bufferOrientation (s : Logger) (orn : Orientation) : Option Logger :=
  (bufferPush s.ornBufLen s.orientationBuffer orn).map
    fun b => { s with orientationBuffer := b }

/-- `Logger::setImage`. -/
def Logger.setImage (s : Logger) (image : Mat) (time : ℚ) : Logger :=
  { s with img := ⟨image, time⟩ }

/-- `Logger::setLocation`: store the sample in `loc`, buffer it, and overwrite
`refLoc` when `refLoc.time == 0`. -/
def Logger.setLocation (s : Logger) (lat lng alt time : ℚ) : Option Logger :=
  let s1 := { s with loc := ⟨lat, lng, alt, time⟩ }
  match s1.bufferLocation s1.loc with
  | none => none
  | some s2 =>
    if s2.refLoc.time = 0 then
      some { s2 with refLoc := ⟨lat, lng, alt, time⟩ }
    else
      some s2

/-- A sequence of `Logger::setLocation` calls, one per sample, in order. -/
def Logger.setLocations : Logger → List Location → Option Logger
  | s, [] => some s
  | s, a :: rest =>
    match s.setLocation a.lat a.lng a.alt a.time with
    | none => none
    | some s1 => Logger.setLocations s1 rest

/-- A sequence of `Logger::bufferLocation` calls. -/
def Logger.bufferLocations : Logger → List Location → Option Logger
  | s, [] => some s
  | s, a :: rest =>
    match s.bufferLocation a with
    | none => none
    | some s1 => Logger.bufferLocations s1 rest

/-- A sequence of `Logger::bufferOrientation` calls. -/
def Logger.bufferOrientations : Logger → List Orientation → Option Logger
  | s, [] => some s
  | s, a :: rest =>
    match s.bufferOrientation a with
    | none => none
    | some s1 => Logger.bufferOrientations s1 rest

/-- `fabs` on exact values. -/
def fabs (x : ℚ) : ℚ := if x < 0 then -x else x

/-- The initial value of `minDist` in the scans of `getImageSet`: `1e7`. -/
def minDistInit : ℚ := 10000000

/-- The scan loop of `getImageSet`, `for (k; k < len; k++)`, with `n` iterations
left: it reads `buf[k]` (no defined result when `k` is outside the vector) and
keeps the sample when its distance to `t` is strictly below `minDist`. -/
def scanNearest {α : Type} (time : α → ℚ) (buf : List α) (t : ℚ) :
    Nat → Nat → α → ℚ → Option α
  | _, 0, best, _ => some best
  | k, n + 1, best, minDist =>
    match buf[k]? with
    | none => none
    | some x =>
      let dist := fabs (time x - t)
      if dist < minDist then
        scanNearest time buf t (k + 1) n x dist
      else
        scanNearest time buf t (k + 1) n best minDist

/-- `Logger::getImageSet`: scan `locBufLen` entries of the location buffer and
`ornBufLen` entries of the orientation buffer for the sample nearest in time to
the frame, and build the fused record. -/
def Logger.getImageSet (s : Logger) : Option ImageSet :=
  match scanNearest Location.time s.locationBuffer s.img.time 0 s.locBufLen
      Location.zero minDistInit with
  | none => none
  | some location =>
    match scanNearest Orientation.time s.orientationBuffer s.img.time 0 s.ornBufLen
        Orientation.zero minDistInit with
    | none => none
    | some orientation =>
      some
        { image := s.img.image
          lat := location.lat
          lng := location.lng
          alt := location.alt
          roll := orientation.roll
          pitch := orientation.pitch
          azimuth := orientation.azimuth
          time := s.img.time }

/-! ## motionDetector.cpp : data model -/

/-- A planar point (`cv::Point2d`), the `location` of an `Object`. -/
structure Point2d where
  x : ℚ
  y : ℚ
  deriving DecidableEq, Repr

/-- A pixel rectangle (`cv::Rect`). -/
structure Rect where
  x : Int
  y : Int
  width : Int
  height : Int
  deriving DecidableEq, Repr

/-- The kind of an `Object`; `motionDetector.cpp` uses `Object::MOVING` only. -/
inductive ObjectType where
  | MOVING
  | OTHER
  deriving DecidableEq, Repr

/-- An `Object` (declared in a header): the members used by `motionDetector.cpp`. -/
structure Object where
  location : Point2d
  box : Rect
  picture : Mat
  type : ObjectType
  deriving DecidableEq, Repr

/-- A contour returned by `cv::findContours`. -/
abbrev Contour := List (Int × Int)

/-- The library functions `motionDetector.cpp` calls (libm, OpenCV, the UTM
conversion) and the constant `PI`; the embedding is parametric in them. -/
structure Prims where
  PI : ℚ
  tan : ℚ → ℚ
  sqrt : ℚ → ℚ
  cos : ℚ → ℚ
  acos : ℚ → ℚ
  LatLonToUTMXY : ℚ → ℚ → ℚ × ℚ
  cvtColorRGB2GRAY : Mat → Mat
  cvtColorBGR2GRAY : Mat → Mat
  calcOpticalFlowFarneback : Mat → Mat → Mat
  convertTo8U : Mat → Mat
  findContours : Mat → List Contour
  contourArea : Contour → ℚ
  boundingRect : Contour → Rect
  crop : Mat → Rect → Mat

/-- The members of `MotionDetector` that `motionDetector.cpp` reads and writes. -/
structure MotionDetector where
  hva : ℚ
  fl : ℚ
  focalLengthSet : Bool
  old_frame : Mat
  objMaxSpeed : ℚ
  minimumDetectionSpeed : ℚ
  objectSizeUpLimit : ℚ
  objectSizeLowLimit : ℚ
  deriving DecidableEq, Repr

/-- `cv::Mat::empty()`: no data or no element. -/
def Mat.empty (m : Mat) : Bool := m.data.isEmpty || m.rows * m.cols == 0

/-- `cv::Mat::zeros(rows, cols, type)` with the given number of channels. -/
def Mat.zeros (rows cols channels : Nat) : Mat :=
  ⟨rows, cols, channels, List.replicate (rows * cols * channels) 0⟩

/-- Reading `m.at<double>(i, j)` of a one-channel matrix; no defined result
outside the data. -/
def Mat.getAt (m : Mat) (i j : Nat) : Option ℚ := m.data[i * m.cols + j]?

/-- Writing `m.at<double>(i, j) = v`; no defined result outside the data. -/
def Mat.setAt (m : Mat) (i j : Nat) (v : ℚ) : Option Mat :=
  if i * m.cols + j < m.data.length then
    some { m with data := m.data.set (i * m.cols + j) v }
  else
    none

/-- Channel `c` of an interleaved matrix with `n` channels (`cv::split`). -/
def Mat.channel (m : Mat) (n c : Nat) : Mat :=
  ⟨m.rows, m.cols, 1, (List.range (m.rows * m.cols)).map fun k => m.data.getD (k * n + c) 0⟩

/-- `a.mul(b)`: the per-element product. -/
def Mat.mul (a b : Mat) : Mat :=
  { a with data := List.zipWith (· * ·) a.data b.data }

/-! ## motionDetector.cpp : operations -/

/-- `MotionDetector::setFocalLength`. -/
def MotionDetector.setFocalLength (P : Prims) (m : MotionDetector) (w : Nat) : MotionDetector :=
  { m with
    fl := (1 / 2) * (w : ℚ) * (1 / P.tan ((m.hva / 2) * P.PI / 180))
    focalLengthSet := true }

/-- The value `h` of the loop body of `calcNormCoeffMat` at pixel `(i, j)`. -/
def pixelOpticalDistance (P : Prims) (fl : ℚ) (rows cols i j : Nat) : ℚ :=
  P.sqrt (((j : ℚ) - (cols : ℚ) / 2) ^ 2 + ((i : ℚ) - (rows : ℚ) / 2) ^ 2 + fl ^ 2)

/-- The ground position `(X, Y)` of pixel `(i, j)` in the loop body of
`calcNormCoeffMat`, from the four corners `f0 .. f3`. -/
def pixelGround (f0 f1 f2 f3 : Point2d) (rows cols i j : Nat) : ℚ × ℚ :=
  let rowFirstX := f0.x + (i : ℚ) * (f3.x - f0.x) / (rows : ℚ)
  let rowFirstY := f0.y + (i : ℚ) * (f3.y - f0.y) / (rows : ℚ)
  let rowLastX := f1.x + (i : ℚ) * (f2.x - f1.x) / (rows : ℚ)
  let rowLastY := f1.y + (i : ℚ) * (f2.y - f1.y) / (rows : ℚ)
  (rowFirstX + (j : ℚ) * (rowLastX - rowFirstX) / (cols : ℚ),
   rowFirstY + (j : ℚ) * (rowLastY - rowFirstY) / (cols : ℚ))

/-- The value `xCoeff` of the loop body of `calcNormCoeffMat` at pixel `(i, j)`:
`sqrt(pow(x-X, 1) + pow(y-Y, 2) + pow(alt, 2)) / h`. -/
def xCoeff (P : Prims) (fl : ℚ) (f0 f1 f2 f3 : Point2d) (x y alt : ℚ)
    (rows cols i j : Nat) : ℚ :=
  let XY := pixelGround f0 f1 f2 f3 rows cols i j
  let h := pixelOpticalDistance P fl rows cols i j
  P.sqrt ((x - XY.1) ^ 1 + (y - XY.2) ^ 2 + alt ^ 2) / h

/-- The angle `alpha` of `calcNormCoeffMat`. -/
def fovAlpha (P : Prims) (f0 f1 f2 : Point2d) : ℚ :=
  let v1_1 := f0.x - f1.x
  let v1_2 := f0.y - f1.y
  let v2_1 := f2.x - f1.x
  let v2_2 := f2.y - f1.y
  let v1dotv2 := v1_1 * v2_1 + v1_2 * v2_2
  (P.PI / 2) - P.acos (v1dotv2 / (P.sqrt (v1_1 ^ 2 + v1_2 ^ 2) * P.sqrt (v2_1 ^ 2 + v2_2 ^ 2)))

/-- The value written to `yNormalizationCoeff` at pixel `(i, j)`. -/
def yCoeff (P : Prims) (fl : ℚ) (f0 f1 f2 f3 : Point2d) (x y alt : ℚ)
    (rows cols i j : Nat) : ℚ :=
  xCoeff P fl f0 f1 f2 f3 x y alt rows cols i j
    / P.cos (((j : ℚ) / ((cols : ℚ) / 2)) * fovAlpha P f0 f1 f2)

/-- The inner loop `for (j; j < cols; j++)` of `calcNormCoeffMat` with `n`
iterations left: writes both coefficients of pixel `(i, j)`. -/
def coeffCols (P : Prims) (fl : ℚ) (f0 f1 f2 f3 : Point2d) (x y alt : ℚ)
    (rows cols i : Nat) : Nat → Nat → Mat × Mat → Option (Mat × Mat)
  | _, 0, acc => some acc
  | j, n + 1, acc =>
    match acc.1.setAt i j (xCoeff P fl f0 f1 f2 f3 x y alt rows cols i j) with
    | none => none
    | some xN =>
      match acc.2.setAt i j (yCoeff P fl f0 f1 f2 f3 x y alt rows cols i j) with
      | none => none
      | some yN => coeffCols P fl f0 f1 f2 f3 x y alt rows cols i (j + 1) n (xN, yN)

/-- The outer loop `for (i; i < rows; i++)` of `calcNormCoeffMat`; its body reads
`fov[3]` (no defined result when `fov` is shorter). -/
def coeffRows (P : Prims) (fl : ℚ) (f0 f1 f2 : Point2d) (fov : List Object) (x y alt : ℚ)
    (rows cols : Nat) : Nat → Nat → Mat × Mat → Option (Mat × Mat)
  | _, 0, acc => some acc
  | i, n + 1, acc =>
    match fov[3]? with
    | none => none
    | some o3 =>
      match coeffCols P fl f0 f1 f2 o3.location x y alt rows cols i 0 cols acc with
      | none => none
      | some acc1 => coeffRows P fl f0 f1 f2 fov x y alt rows cols (i + 1) n acc1

/-- `MotionDetector::calcNormCoeffMat`: fills the two coefficient matrices; the
corners are `fov[0] .. fov[3]` (no defined result when `fov` is shorter). -/
def MotionDetector.calcNormCoeffMat (P : Prims) (m : MotionDetector) (fov : List Object)
    (lat lng alt : ℚ) (xNormalizationCoeff yNormalizationCoeff : Mat) : Option (Mat × Mat) :=
  let xy := P.LatLonToUTMXY lat lng
  match fov[0]?, fov[1]?, fov[2]? with
  | some o0, some o1, some o2 =>
    coeffRows P m.fl o0.location o1.location o2.location fov xy.1 xy.2 alt
      m.old_frame.rows m.old_frame.cols 0 m.old_frame.rows
      (xNormalizationCoeff, yNormalizationCoeff)
  | _, _, _ => none

/-- The clipping of one entry in `metricNormalize`. -/
def clipSpeed (objMaxSpeed v : ℚ) : ℚ := if v > objMaxSpeed then objMaxSpeed else v

/-- The horizontal coefficient as the specification words it:
`sqrt(planarDistanceSquared + altitude²) / pixelOpticalDistance`, for the camera
position `(x, y)` and the ground position `(X, Y)` of the pixel. -/
def xCoeffSpec (P : Prims) (fl : ℚ) (x y alt X Y : ℚ) (rows cols i j : Nat) : ℚ :=
  P.sqrt ((x - X) ^ 2 + (y - Y) ^ 2 + alt ^ 2)
    / P.sqrt (((j : ℚ) - (cols : ℚ) / 2) ^ 2 + ((i : ℚ) - (rows : ℚ) / 2) ^ 2 + fl ^ 2)

/-- The inner loop `for (j; j < cols; j++)` of `metricNormalize` with `n`
iterations left: an entry above `objMaxSpeed` is overwritten by `objMaxSpeed`. -/
def clipCols (objMaxSpeed : ℚ) (i : Nat) : Nat → Nat → Mat → Option Mat
  | _, 0, m => some m
  | j, n + 1, m =>
    match m.getAt i j with
    | none => none
    | some v =>
      if v > objMaxSpeed then
        match m.setAt i j objMaxSpeed with
        | none => none
        | some m1 => clipCols objMaxSpeed i (j + 1) n m1
      else
        clipCols objMaxSpeed i (j + 1) n m

/-- The outer loop `for (i; i < rows; i++)` of `metricNormalize`. -/
def clipRows (objMaxSpeed : ℚ) (cols : Nat) : Nat → Nat → Mat → Option Mat
  | _, 0, m => some m
  | i, n + 1, m =>
    match clipCols objMaxSpeed i 0 cols m with
    | none => none
    | some m1 => clipRows objMaxSpeed cols (i + 1) n m1

/-- `MotionDetector::metricNormalize`: clip every entry to `objMaxSpeed`, then
scale the matrix by `255.0 / objMaxSpeed`. -/
def MotionDetector.metricNormalize (m : MotionDetector) (inp : Mat) : Option Mat :=
  match clipRows m.objMaxSpeed inp.cols 0 inp.rows inp with
  | none => none
  | some clipped =>
    some { clipped with data := clipped.data.map fun v => (255 / m.objMaxSpeed) * v }

/-- `MotionDetector::visualize`: metric flow per channel, its magnitude
(`cv::cartToPolar`), then `metricNormalize`. -/
def MotionDetector.visualize (P : Prims) (m : MotionDetector) (flow : Mat)
    (xNormalizationCoeff yNormalizationCoeff : Mat) : Option Mat :=
  let metricFlowX := (flow.channel 2 0).mul xNormalizationCoeff
  let metricFlowY := (flow.channel 2 1).mul yNormalizationCoeff
  let magnitude : Mat :=
    { metricFlowX with
      data := List.zipWith (fun a b => P.sqrt (a * a + b * b)) metricFlowX.data metricFlowY.data }
  m.metricNormalize magnitude

/-- The contour loop of `generateMovingRects`: keep the contours whose share of
the image area lies strictly between the two size limits. -/
def movingObjects (P : Prims) (m : MotionDetector) (input : Mat) (imArea : ℚ) :
    List Contour → List Object → List Object
  | [], objects => objects
  | contour :: rest, objects =>
    let area := P.contourArea contour
    let areaShare := area / imArea
    if areaShare < m.objectSizeUpLimit ∧ areaShare > m.objectSizeLowLimit then
      let box := P.boundingRect contour
      movingObjects P m input imArea rest
        (objects ++ [⟨⟨0, 0⟩, box, P.crop input box, ObjectType.MOVING⟩])
    else
      movingObjects P m input imArea rest objects

/-- `MotionDetector::generateMovingRects`: threshold at `minimumDetectionSpeed`,
find the contours, clear `objects` and collect the moving objects. -/
def MotionDetector.generateMovingRects (P : Prims) (m : MotionDetector) (input output : Mat)
    (_objects : List Object) : Mat × List Object :=
  let otpt : Mat :=
    { output with data := output.data.map fun v => if v > m.minimumDetectionSpeed then 255 else 0 }
  let output1 := P.convertTo8U output
  let contours := P.findContours (P.convertTo8U otpt)
  let imArea : ℚ := ((output1.rows * output1.cols : Nat) : ℚ)
  (output1, movingObjects P m input imArea contours [])

/-- `MotionDetector::detect`: returns the new detector state, the `output`
image and the `objects` list (both are reference parameters of the source). -/
def MotionDetector.detect (P : Prims) (m : MotionDetector) (imgSt : ImageSet) (_output : Mat)
    (objects : List Object) (fov : List Object) :
    Option (MotionDetector × Mat × List Object) :=
  if m.old_frame.empty then
    let m1 := { m with old_frame := P.cvtColorRGB2GRAY imgSt.image }
    let output1 := Mat.zeros imgSt.image.rows imgSt.image.cols 3
    let m2 := if !m1.focalLengthSet then m1.setFocalLength P imgSt.image.rows else m1
    some (m2, output1, objects)
  else
    let frame := imgSt.image
    let new_frame := P.cvtColorBGR2GRAY frame
    let flow := P.calcOpticalFlowFarneback m.old_frame new_frame
    let m1 := { m with old_frame := P.cvtColorRGB2GRAY frame }
    let blank := Mat.zeros m1.old_frame.rows m1.old_frame.cols 1
    match m1.calcNormCoeffMat P fov imgSt.lat imgSt.lng imgSt.alt blank blank with
    | none => none
    | some (xN, yN) =>
      match m1.visualize P flow xN yN with
      | none => none
      | some output1 =>
        let r := m1.generateMovingRects P imgSt.image output1 objects
        some (m1, r.1, r.2)

/-! ## sweeper.cpp : data model -/

/-- A point of the ring (`boost2dPoint`): `x` is the longitude, `y` the latitude. -/
structure boost2dPoint where
  x : ℚ
  y : ℚ
  deriving DecidableEq, Repr

/-- A `polygon` of `SweeperGeometry`: the exterior ring and the interior rings. -/
structure polygon where
  outer : List boost2dPoint
  inners : List (List boost2dPoint)
  deriving DecidableEq, Repr

/-- The geometry library functions `sweeper.cpp` calls; the embedding is
parametric in them. -/
structure Geom where
  correct : polygon → polygon
  union_ : polygon → polygon → List polygon

/-- The members of `Sweeper`. -/
structure Sweeper where
  sweeped_area : polygon
  isFirstPolygon : Bool
  deriving DecidableEq, Repr

/-! ## sweeper.cpp : operations -/

/-- `Sweeper::dist`: the squared planar distance. -/
def dist (x1 y1 x2 y2 : ℚ) : ℚ :=
  (x1 - x2) * (x1 - x2) + (y1 - y2) * (y1 - y2)

/-- The welding threshold `(double)0.00002 * (double)0.00002`. -/
def weldThreshold : ℚ := (2 / 100000) * (2 / 100000)

/-- The inner loop of the first pass of `refineLocations`:
`for (it1 = it + 1; it1 != end - 1; ++it1)`, where `it1` is the remaining ring
from the current vertex on and `j` its index; a vertex nearer than the threshold
to `(x1, y1)` gets `idxs_to_remove.at(j) = true`. -/
def markClose (x1 y1 : ℚ) : List boost2dPoint → Nat → List Bool → Option (List Bool)
  | [], _, _ => none
  | [_], _, marks => some marks
  | q :: r :: rest, j, marks =>
    if dist x1 y1 q.x q.y < weldThreshold then
      if j < marks.length then
        markClose x1 y1 (r :: rest) (j + 1) (marks.set j true)
      else
        none
    else
      markClose x1 y1 (r :: rest) (j + 1) marks

/-- The outer loop of the first pass of `refineLocations`:
`for (it = begin; it != end - 1; ++it)`, where `it` is the remaining ring and `i`
the index of its first vertex; a vertex already marked is skipped. -/
def markPass : List boost2dPoint → Nat → List Bool → Option (List Bool)
  | [], _, _ => none
  | [_], _, marks => some marks
  | p :: q :: rest, i, marks =>
    match marks[i]? with
    | none => none
    | some true => markPass (q :: rest) (i + 1) marks
    | some false =>
      match markClose p.x p.y (q :: rest) (i + 1) marks with
      | none => none
      | some marks1 => markPass (q :: rest) (i + 1) marks1

/-- The second pass of `refineLocations`: copy the vertices whose mark is not set. -/
def keepUnmarked : List boost2dPoint → Nat → List Bool → Option (List boost2dPoint)
  | [], _, _ => some []
  | p :: rest, i, marks =>
    match marks[i]? with
    | none => none
    | some true => keepUnmarked rest (i + 1) marks
    | some false => (keepUnmarked rest (i + 1) marks).map fun kept => p :: kept

/-- The welding of an exterior ring by `refineLocations`. -/
def refineRing (ring : List boost2dPoint) : Option (List boost2dPoint) :=
  match markPass ring 0 (List.replicate ring.length false) with
  | none => none
  | some marks => keepUnmarked ring 0 marks

/-- `Sweeper::refineLocations`: the polygon is replaced by a fresh polygon that
holds the welded exterior ring. -/
def refineLocations (points : polygon) : Option polygon :=
  (refineRing points.outer).map fun ring => ⟨ring, []⟩

/-- The point appended for a vertex: `make<boost2dPoint>(ver.lng, ver.lat)`. -/
def toPoint (ver : Location) : boost2dPoint := ⟨ver.lng, ver.lat⟩

/-- The ring `Sweeper::update` has appended to `new_poly` when it calls
`boost::geometry::correct`: every vertex of `fov_loc`, then
`fov_loc[fov_loc.size()-1]` once more (no defined result for an empty `fov_loc`). -/
def appendedRing (fov_loc : List Location) : Option (List boost2dPoint) :=
  match fov_loc.getLast? with
  | none => none
  | some last => some (fov_loc.map toPoint ++ [toPoint last])

/-- The `output` vertex built from a ring point: a default `Location` with
`lng` and `lat` set. -/
def toLocation (pt : boost2dPoint) : Location :=
  { Location.zero with lng := pt.x, lat := pt.y }

/-- `Sweeper::update`: returns the new state and the `output` vector. -/
def Sweeper.update (G : Geom) (s : Sweeper) (fov_loc : List Location)
    (_output : List Location) : Option (Sweeper × List Location) :=
  match appendedRing fov_loc with
  | none => none
  | some ring =>
    let new_poly := G.correct ⟨ring, []⟩
    if s.isFirstPolygon then
      some ({ sweeped_area := new_poly, isFirstPolygon := false }, fov_loc)
    else
      match G.union_ s.sweeped_area new_poly with
      | [] => some (s, [])
      | first :: _ =>
        match refineLocations first with
        | none => none
        | some temp_poly =>
          some ({ s with sweeped_area := temp_poly }, temp_poly.outer.map toLocation)

/-! ## sweeper.cpp : list functions used to describe the welding -/

/-- The test of the inner loop of `refineLocations` for the vertex `q` against
`(x1, y1)`. -/
def closeTo (x1 y1 : ℚ) (q : boost2dPoint) : Bool :=
  decide (dist x1 y1 q.x q.y < weldThreshold)

/-- The marks of the vertices `qs` after one run of the inner loop for `(x1, y1)`:
a mark is set, or stays as it was. -/
def orClose (x1 y1 : ℚ) : List boost2dPoint → List Bool → List Bool
  | q :: qs, m :: ms => (m || closeTo x1 y1 q) :: orClose x1 y1 qs ms
  | _, _ => []

/-- The marks of the vertices `ps` after the first pass, from their marks before. -/
def passMarks : List boost2dPoint → List Bool → List Bool
  | p :: ps, m :: ms =>
    if m then true :: passMarks ps ms else false :: passMarks ps (orClose p.x p.y ps ms)
  | _, _ => []

/-- The vertices of `ps` whose mark is not set. -/
def keepMarks : List boost2dPoint → List Bool → List boost2dPoint
  | p :: ps, m :: ms => if m then keepMarks ps ms else p :: keepMarks ps ms
  | _, _ => []

/-- Greedy welding of a vertex list: a vertex is kept when no earlier kept vertex
is nearer than the threshold. -/
def weld : List boost2dPoint → List boost2dPoint
  | [] => []
  | p :: rest => p :: weld (rest.filter fun q => !closeTo p.x p.y q)
termination_by l => l.length
decreasing_by
  simp only [List.length_cons]
  exact Nat.lt_succ_of_le (List.length_filter_le _ _)

/-! ## sweeper.cpp : area of a ring, and a geometry stand-in -/

/-- Modelled from the spec: the initial `Sweeper` state (set in `sweeper.h`): no
polygon merged yet. -/
def Sweeper.init : Sweeper := ⟨⟨[], []⟩, true⟩

/-- Twice the signed area enclosed by a closed ring (shoelace sum). -/
def shoelace : List boost2dPoint → ℚ
  | p :: q :: rest => (p.x * q.y - q.x * p.y) + shoelace (q :: rest)
  | _ => 0

/-- The area enclosed by one closed ring (half the absolute shoelace sum). -/
def ringArea (ring : List boost2dPoint) : ℚ := fabs (shoelace ring) / 2

/-- Closing a ring as `boost::geometry::correct` does: the first point is
appended when the ring does not end with it. -/
def closeRing (ring : List boost2dPoint) : List boost2dPoint :=
  match ring with
  | [] => []
  | p :: rest => if (p :: rest).getLast? = some p then p :: rest else (p :: rest) ++ [p]

/-- A stand-in for the geometry library on clockwise footprints of which each
covers no ground outside the coverage so far (as when one footprint is
submitted again): `correct` closes the ring and `union_` returns its first
operand, which is then the union. -/
def coveredGeom : Geom :=
  { correct := fun poly => ⟨closeRing poly.outer, poly.inners⟩
    union_ := fun a _ => [a] }

/-- Two vertices are not welded: their squared distance reaches the threshold. -/
def farApart (a b : boost2dPoint) : Prop := weldThreshold ≤ dist a.x a.y b.x b.y

/-! ## sweeper.cpp : update sequences and the ground they cover -/

/-- The area of a polygon: the area of its exterior ring less the areas of its
interior rings.  `sweeper.cpp` computes no area; this is the area the
specification's coverage property speaks of. -/
def polygonArea (poly : polygon) : ℚ :=
  ringArea poly.outer - (poly.inners.map ringArea).sum

/-- A sequence of `Sweeper::update` calls, one per footprint, in order. -/
def Sweeper.updates (G : Geom) : Sweeper → List (List Location) → Option Sweeper
  | s, [] => some s
  | s, f :: fs =>
    match s.update G f [] with
    | none => none
    | some r => Sweeper.updates G r.1 fs

/-- The ground covered by one footprint: the region of the polygon that
`Sweeper::update` builds from it (`new_poly` after `boost::geometry::correct`),
for an assignment `region` of ground point sets to polygons. -/
def footprintRegion {Ω : Type} (G : Geom) (region : polygon → Set Ω)
    (f : List Location) : Set Ω :=
  match appendedRing f with
  | none => ∅
  | some ring => region (G.correct ⟨ring, []⟩)

/-- The union of the ground covered by the footprints of a list. -/
def footprintsRegion {Ω : Type} (G : Geom) (region : polygon → Set Ω) :
    List (List Location) → Set Ω
  | [] => ∅
  | f :: fs => footprintRegion G region f ∪ footprintsRegion G region fs

/-- The conditions on a run of `Sweeper::update` calls from the state `s` under
which the coverage property is stated.  Every footprint is non-empty.  The
polygon stored by each call has the shoelace area of the ground it covers.  On
every call but the first, the union primitive returns a first polygon `u` that
covers exactly the ground of the coverage so far and of the new footprint, has
no interior ring, and has its non-final vertices pairwise far apart, so that the
welding pass removes nothing. -/
def UnweldedRun {Ω : Type} (G : Geom) (region : polygon → Set Ω) (area : Set Ω → ℚ) :
    Sweeper → List (List Location) → Prop
  | _, [] => True
  | s, f :: fs =>
    ∃ ring, appendedRing f = some ring ∧
      if s.isFirstPolygon = true then
        area (region (G.correct ⟨ring, []⟩)) = polygonArea (G.correct ⟨ring, []⟩) ∧
          UnweldedRun G region area ⟨G.correct ⟨ring, []⟩, false⟩ fs
      else
        ∃ u others, G.union_ s.sweeped_area (G.correct ⟨ring, []⟩) = u :: others ∧
          region u = region s.sweeped_area ∪ region (G.correct ⟨ring, []⟩) ∧
          area (region u) = polygonArea u ∧
          u.inners = [] ∧ u.outer ≠ [] ∧ u.outer.dropLast.Pairwise farApart ∧
          UnweldedRun G region area ⟨u, false⟩ fs

/-! ## sweeper.cpp : a geometry stand-in for axis-parallel rectangles -/

/-- The least value of a list (0 for the empty list). -/
def lowest (l : List ℚ) : ℚ := l.foldl min (l.headD 0)

/-- The greatest value of a list (0 for the empty list). -/
def highest (l : List ℚ) : ℚ := l.foldl max (l.headD 0)

/-- The clockwise closed rectangle that bounds a list of points. -/
def boundingBox (pts : List boost2dPoint) : polygon :=
  let x0 := lowest (pts.map fun p => p.x)
  let x1 := highest (pts.map fun p => p.x)
  let y0 := lowest (pts.map fun p => p.y)
  let y1 := highest (pts.map fun p => p.y)
  ⟨[⟨x0, y0⟩, ⟨x0, y1⟩, ⟨x1, y1⟩, ⟨x1, y0⟩, ⟨x0, y0⟩], []⟩

/-- A stand-in for the geometry library on clockwise axis-parallel rectangles
that overlap and share their vertical extent: `correct` closes the ring, and
the union of two such rectangles is the rectangle that bounds both. -/
def boxGeom : Geom :=
  { correct := fun poly => ⟨closeRing poly.outer, poly.inners⟩
    union_ := fun a b => [boundingBox (a.outer ++ b.outer)] }

/-- The ground covered by an axis-parallel rectangle given by its ring: the
points between its least and greatest coordinates. -/
def boxRegion (poly : polygon) : Set (ℚ × ℚ) :=
  { pt | lowest (poly.outer.map fun p => p.x) ≤ pt.1 ∧
      pt.1 ≤ highest (poly.outer.map fun p => p.x) ∧
      lowest (poly.outer.map fun p => p.y) ≤ pt.2 ∧
      pt.2 ≤ highest (poly.outer.map fun p => p.y) }

/-! ## Logger.cpp : theorems -/

theorem bufferPush_eq {α : Type} (cap : Nat) (buf : List α) (x : α)
    (hcap : 1 ≤ cap) (hlen : buf.length ≤ cap) :
    bufferPush cap buf x = some ((buf ++ [x]).drop (buf.length + 1 - cap)) := by
  unfold bufferPush
  by_cases h : buf.length < cap
  · have h0 : buf.length + 1 - cap = 0 := by omega
    simp [h, h0]
  · cases buf with
    | nil => simp at h; omega
    | cons b rest =>
      have h1 : (b :: rest).length + 1 - cap = 1 := by
        simp only [List.length_cons] at h hlen ⊢
        omega
      simp only [h, if_false, h1]
      simp

theorem drop_append_drop {α : Type} (L R : List α) (N : Nat) :
    ((L.drop (L.length - N)) ++ R).drop (((L.drop (L.length - N)) ++ R).length - N)
      = (L ++ R).drop ((L ++ R).length - N) := by
  have h1 : L.drop (L.length - N) ++ R = (L ++ R).drop (L.length - N) := by
    rw [List.drop_append_of_le_length (by omega)]
  rw [h1, List.drop_drop]
  congr 1
  simp only [List.length_drop, List.length_append]
  omega

theorem bufferLocations_eq (xs : List Location) :
    ∀ s : Logger, 1 ≤ s.locBufLen → s.locationBuffer.length ≤ s.locBufLen →
      s.bufferLocations xs = some { s with
        locationBuffer :=
          (s.locationBuffer ++ xs).drop ((s.locationBuffer ++ xs).length - s.locBufLen) } := by
  induction xs with
  | nil =>
    intro s _ hlen
    have h0 : s.locationBuffer.length - s.locBufLen = 0 := by omega
    simp [Logger.bufferLocations, h0]
  | cons a rest ih =>
    intro s hcap hlen
    have hp := bufferPush_eq s.locBufLen s.locationBuffer a hcap hlen
    have hL : (s.locationBuffer ++ [a]).length - s.locBufLen
        = s.locationBuffer.length + 1 - s.locBufLen := by simp
    simp only [Logger.bufferLocations, Logger.bufferLocation, hp, Option.map_some']
    have hstep := ih { s with locationBuffer :=
        (s.locationBuffer ++ [a]).drop (s.locationBuffer.length + 1 - s.locBufLen) } hcap
      (by simp only [List.length_drop, List.length_append, List.length_singleton]; omega)
    rw [hstep]
    simp only [← hL]
    rw [drop_append_drop]
    simp

theorem bufferOrientations_eq (ys : List Orientation) :
    ∀ s : Logger, 1 ≤ s.ornBufLen → s.orientationBuffer.length ≤ s.ornBufLen →
      s.bufferOrientations ys = some { s with
        orientationBuffer :=
          (s.orientationBuffer ++ ys).drop
            ((s.orientationBuffer ++ ys).length - s.ornBufLen) } := by
  induction ys with
  | nil =>
    intro s _ hlen
    have h0 : s.orientationBuffer.length - s.ornBufLen = 0 := by omega
    simp [Logger.bufferOrientations, h0]
  | cons a rest ih =>
    intro s hcap hlen
    have hp := bufferPush_eq s.ornBufLen s.orientationBuffer a hcap hlen
    have hL : (s.orientationBuffer ++ [a]).length - s.ornBufLen
        = s.orientationBuffer.length + 1 - s.ornBufLen := by simp
    simp only [Logger.bufferOrientations, Logger.bufferOrientation, hp, Option.map_some']
    have hstep := ih { s with orientationBuffer :=
        (s.orientationBuffer ++ [a]).drop (s.orientationBuffer.length + 1 - s.ornBufLen) } hcap
      (by simp only [List.length_drop, List.length_append, List.length_singleton]; omega)
    rw [hstep]
    simp only [← hL]
    rw [drop_append_drop]
    simp

/-- C2: for capacities of at least one, inserting the samples `xs` with
`Logger::bufferLocation` (and the samples `ys` with `Logger::bufferOrientation`)
into an empty buffer succeeds and leaves exactly the last `min m N` inserted
samples, in insertion order; so the size is `min m N`, never above the capacity,
and once more than `N` samples were inserted exactly the last `N` remain. -/
theorem ring_buffer_holds_last_samples (s : Logger) (xs : List Location)
    (ys : List Orientation) (hN : 1 ≤ s.locBufLen) (hM : 1 ≤ s.ornBufLen)
    (hl : s.locationBuffer = []) (ho : s.orientationBuffer = []) :
    (∃ s1, s.bufferLocations xs = some s1 ∧
      s1.locationBuffer = xs.drop (xs.length - min xs.length s.locBufLen) ∧
      s1.locationBuffer.length = min xs.length s.locBufLen ∧
      s1.locationBuffer.length ≤ s.locBufLen ∧
      (s.locBufLen < xs.length →
        s1.locationBuffer = xs.drop (xs.length - s.locBufLen) ∧
        s1.locationBuffer.length = s.locBufLen)) ∧
    (∃ s2, s.bufferOrientations ys = some s2 ∧
      s2.orientationBuffer = ys.drop (ys.length - min ys.length s.ornBufLen) ∧
      s2.orientationBuffer.length = min ys.length s.ornBufLen ∧
      s2.orientationBuffer.length ≤ s.ornBufLen ∧
      (s.ornBufLen < ys.length →
        s2.orientationBuffer = ys.drop (ys.length - s.ornBufLen) ∧
        s2.orientationBuffer.length = s.ornBufLen)) := by
  constructor
  · refine ⟨_, bufferLocations_eq xs s hN (by simp [hl]), ?_⟩
    have hm : xs.length - min xs.length s.locBufLen = xs.length - s.locBufLen := by omega
    simp only [hl, List.nil_append, hm, List.length_drop, true_and]
    omega
  · refine ⟨_, bufferOrientations_eq ys s hM (by simp [ho]), ?_⟩
    have hm : ys.length - min ys.length s.ornBufLen = ys.length - s.ornBufLen := by omega
    simp only [ho, List.nil_append, hm, List.length_drop, true_and]
    omega

theorem ring_buffer_holds_last_samples_witness :
    (∃ s1, (Logger.init 2 1).bufferLocations
        [⟨1, 1, 1, 1⟩, ⟨2, 2, 2, 2⟩, ⟨3, 3, 3, 3⟩] = some s1 ∧
      s1.locationBuffer = [⟨2, 2, 2, 2⟩, ⟨3, 3, 3, 3⟩]) ∧
    (∃ s2, (Logger.init 2 1).bufferOrientations
        [⟨1, 1, 1, 1⟩, ⟨2, 2, 2, 2⟩] = some s2 ∧
      s2.orientationBuffer = [⟨2, 2, 2, 2⟩]) := by
  have h := ring_buffer_holds_last_samples (Logger.init 2 1)
    [⟨1, 1, 1, 1⟩, ⟨2, 2, 2, 2⟩, ⟨3, 3, 3, 3⟩] [⟨1, 1, 1, 1⟩, ⟨2, 2, 2, 2⟩]
    (by decide) (by decide) rfl rfl
  obtain ⟨⟨s1, h1, h1b, _⟩, ⟨s2, h2, h2b, _⟩⟩ := h
  exact ⟨⟨s1, h1, by simpa [Logger.init] using h1b⟩, ⟨s2, h2, by simpa [Logger.init] using h2b⟩⟩

theorem setLocations_keeps_refLoc (xs : List Location) :
    ∀ s : Logger, 1 ≤ s.locBufLen → s.locationBuffer.length ≤ s.locBufLen →
      s.refLoc.time ≠ 0 → (s.setLocations xs).map (·.refLoc) = some s.refLoc := by
  induction xs with
  | nil => intro s _ _ _; simp [Logger.setLocations]
  | cons a rest ih =>
    intro s hcap hlen href
    have hp := bufferPush_eq s.locBufLen s.locationBuffer a hcap hlen
    simp only [Logger.setLocations, Logger.setLocation, Logger.bufferLocation, hp,
      Option.map_some', href, if_false]
    exact ih _ hcap
      (by simp only [List.length_drop, List.length_append, List.length_singleton]; omega) href

/-- C4 (as amended): from the initial state with a location capacity of at least
one, a sequence of `Logger::setLocation` calls whose first sample has a non-zero
timestamp succeeds, and afterwards the reference origin `refLoc` is that first
sample, whatever the later samples are. -/
theorem refLoc_is_first_sample_of_nonzero_time (locBufLen ornBufLen : Nat)
    (a : Location) (rest : List Location) (hcap : 1 ≤ locBufLen) (ht : a.time ≠ 0) :
    ((Logger.init locBufLen ornBufLen).setLocations (a :: rest)).map (·.refLoc) = some a := by
  have hp := bufferPush_eq locBufLen ([] : List Location) a hcap (by simp)
  simp only [Logger.setLocations, Logger.setLocation, Logger.bufferLocation, Logger.init, hp,
    Option.map_some', Location.zero, if_true]
  exact setLocations_keeps_refLoc rest _ hcap
    (by simp only [List.length_drop, List.length_append, List.length_singleton,
          List.length_nil]; omega) ht

theorem refLoc_is_first_sample_of_nonzero_time_witness :
    ((Logger.init 2 1).setLocations [⟨1, 1, 1, 7⟩, ⟨2, 2, 2, 0⟩, ⟨3, 3, 3, 9⟩]).map (·.refLoc)
      = some ⟨1, 1, 1, 7⟩ :=
  refLoc_is_first_sample_of_nonzero_time 2 1 ⟨1, 1, 1, 7⟩ [⟨2, 2, 2, 0⟩, ⟨3, 3, 3, 9⟩]
    (by decide) (by decide)

/-- C4 (counterexample): when the first ingested sample has timestamp zero, the
second `Logger::setLocation` call overwrites the reference origin, which then
differs from the first-ever sample. -/
theorem refLoc_overwritten_after_zero_time :
    ((Logger.init 2 1).setLocations [⟨1, 1, 1, 0⟩, ⟨2, 2, 2, 5⟩]).map (·.refLoc)
        = some ⟨2, 2, 2, 5⟩ ∧
      (⟨2, 2, 2, 5⟩ : Location) ≠ ⟨1, 1, 1, 0⟩ := by
  constructor
  · simp [Logger.setLocations, Logger.setLocation, Logger.bufferLocation, bufferPush,
      Logger.init, Location.zero]
  · decide

/-- C1 (failing input): capacity two, one location sample buffered, one
orientation sample buffered and a frame set.  The location scan of
`Logger::getImageSet` runs `k = 0, 1` and reads `locationBuffer[1]`, which is
outside the one-element vector: no fused record is defined. -/
theorem getImageSet_reads_past_buffer_end :
    ((((Logger.init 2 1).setLocation 1 2 3 5).bind
        (fun s => s.bufferOrientation ⟨0, 0, 0, 5⟩)).map
        (fun s => s.setImage Mat.blank 5)).bind (fun s => s.getImageSet) = none := by
  simp [Logger.init, Logger.setLocation, Logger.bufferLocation, Logger.bufferOrientation,
    Logger.setImage, bufferPush, Logger.getImageSet, scanNearest, fabs, Location.zero,
    minDistInit]

/-- C3 (failing input): capacity one, no location sample yet, one orientation
sample buffered.  The location scan of `Logger::getImageSet` reads
`locationBuffer[0]` of the empty vector: the call does not complete with a
zero-valued record. -/
theorem getImageSet_reads_empty_buffer :
    (((Logger.init 1 1).bufferOrientation ⟨0, 0, 0, 5⟩).map
        (fun s => s.setImage Mat.blank 5)).bind (fun s => s.getImageSet) = none := by
  simp [Logger.init, Logger.bufferOrientation, Logger.setImage, bufferPush,
    Logger.getImageSet, scanNearest]

/-! ## motionDetector.cpp : theorems -/

theorem clipCols_spec (mx : ℚ) (i : Nat) :
    ∀ (n j : Nat) (m : Mat), i * m.cols + j + n ≤ m.data.length →
      ∃ m1, clipCols mx i j n m = some m1 ∧ m1.rows = m.rows ∧ m1.cols = m.cols ∧
        m1.channels = m.channels ∧ m1.data.length = m.data.length ∧
        ∀ k, m1.data[k]? =
          if i * m.cols + j ≤ k ∧ k < i * m.cols + j + n then (m.data[k]?).map (clipSpeed mx)
          else m.data[k]? := by
  intro n
  induction n with
  | zero =>
    intro j m _
    refine ⟨m, rfl, rfl, rfl, rfl, rfl, ?_⟩
    intro k
    rw [if_neg (by omega)]
  | succ n ih =>
    intro j m hb
    have ha : i * m.cols + j < m.data.length := by omega
    have hget : m.getAt i j = some (m.data[i * m.cols + j]) := by
      simp [Mat.getAt, ha]
    by_cases hv : m.data[i * m.cols + j] > mx
    · have hset : m.setAt i j mx = some { m with data := m.data.set (i * m.cols + j) mx } := by
        simp [Mat.setAt, ha]
      obtain ⟨m1, h1, hr, hc, hch, hl, hk⟩ := ih (j + 1)
        { m with data := m.data.set (i * m.cols + j) mx } (by simp; omega)
      refine ⟨m1, ?_, hr, hc, hch, by simpa using hl, ?_⟩
      · simp only [clipCols, hget, hv, if_true, hset]
        exact h1
      · intro k
        rw [hk k]
        simp only [List.getElem?_set]
        by_cases hka : i * m.cols + j = k
        · subst hka
          have h1 : ¬ (i * m.cols + j + 1 ≤ i * m.cols + j ∧
              i * m.cols + j < i * m.cols + j + 1 + n) := by omega
          have h2 : (i * m.cols + j ≤ i * m.cols + j ∧
              i * m.cols + j < i * m.cols + j + (n + 1)) := by omega
          simp [h1, h2, ha, clipSpeed, hv]
        · by_cases hr : i * m.cols + (j + 1) ≤ k ∧ k < i * m.cols + (j + 1) + n
          · have h2 : (i * m.cols + j ≤ k ∧ k < i * m.cols + j + (n + 1)) := by omega
            simp [hr, h2, hka]
          · have h2 : ¬ (i * m.cols + j ≤ k ∧ k < i * m.cols + j + (n + 1)) := by omega
            simp [hr, h2, hka]
    · obtain ⟨m1, h1, hr, hc, hch, hl, hk⟩ := ih (j + 1) m (by omega)
      refine ⟨m1, ?_, hr, hc, hch, hl, ?_⟩
      · simp only [clipCols, hget, hv, if_false]
        exact h1
      · intro k
        rw [hk k]
        by_cases hka : i * m.cols + j = k
        · subst hka
          have h1 : ¬ (i * m.cols + (j + 1) ≤ i * m.cols + j ∧
              i * m.cols + j < i * m.cols + (j + 1) + n) := by omega
          have h2 : (i * m.cols + j ≤ i * m.cols + j ∧
              i * m.cols + j < i * m.cols + j + (n + 1)) := by omega
          simp [h1, h2, ha, clipSpeed, hv]
        · by_cases hr : i * m.cols + (j + 1) ≤ k ∧ k < i * m.cols + (j + 1) + n
          · have h2 : (i * m.cols + j ≤ k ∧ k < i * m.cols + j + (n + 1)) := by omega
            simp [hr, h2]
          · have h2 : ¬ (i * m.cols + j ≤ k ∧ k < i * m.cols + j + (n + 1)) := by omega
            simp [hr, h2]

theorem clipRows_spec (mx : ℚ) :
    ∀ (n i : Nat) (m : Mat), (i + n) * m.cols ≤ m.data.length →
      ∃ m1, clipRows mx m.cols i n m = some m1 ∧ m1.rows = m.rows ∧ m1.cols = m.cols ∧
        m1.channels = m.channels ∧ m1.data.length = m.data.length ∧
        ∀ k, m1.data[k]? =
          if i * m.cols ≤ k ∧ k < (i + n) * m.cols then (m.data[k]?).map (clipSpeed mx)
          else m.data[k]? := by
  intro n
  induction n with
  | zero =>
    intro i m _
    refine ⟨m, rfl, rfl, rfl, rfl, rfl, ?_⟩
    intro k
    rw [if_neg (by simp only [Nat.add_zero]; omega)]
  | succ n ih =>
    intro i m hb
    have hexp : (i + (n + 1)) * m.cols = i * m.cols + m.cols + n * m.cols := by ring
    have hexp2 : (i + 1 + n) * m.cols = i * m.cols + m.cols + n * m.cols := by ring
    obtain ⟨m1, h1, hr1, hc1, hch1, hl1, hk1⟩ := clipCols_spec mx i m.cols 0 m (by omega)
    obtain ⟨m2, h2, hr2, hc2, hch2, hl2, hk2⟩ := ih (i + 1) m1 (by rw [hc1, hl1, hexp2]; omega)
    refine ⟨m2, ?_, by rw [hr2, hr1], by rw [hc2, hc1], by rw [hch2, hch1], by rw [hl2, hl1], ?_⟩
    · simp only [clipRows, h1]
      rw [← hc1]
      exact h2
    · intro k
      rw [hk2 k, hk1 k, hc1, hexp2, hexp]
      by_cases hA : i * m.cols + 0 ≤ k ∧ k < i * m.cols + 0 + m.cols
      · have hB : ¬ ((i + 1) * m.cols ≤ k ∧ k < i * m.cols + m.cols + n * m.cols) := by
          have : (i + 1) * m.cols = i * m.cols + m.cols := by ring
          omega
        have hC : i * m.cols ≤ k ∧ k < i * m.cols + m.cols + n * m.cols := by omega
        rw [if_neg hB, if_pos hA, if_pos hC]
      · by_cases hB : (i + 1) * m.cols ≤ k ∧ k < i * m.cols + m.cols + n * m.cols
        · have hC : i * m.cols ≤ k ∧ k < i * m.cols + m.cols + n * m.cols := by
            have : (i + 1) * m.cols = i * m.cols + m.cols := by ring
            omega
          rw [if_pos hB, if_neg hA, if_pos hC]
        · have hC : ¬ (i * m.cols ≤ k ∧ k < i * m.cols + m.cols + n * m.cols) := by
            have : (i + 1) * m.cols = i * m.cols + m.cols := by ring
            omega
          rw [if_neg hB, if_neg hA, if_neg hC]

theorem metricNormalize_eq (m : MotionDetector) (inp : Mat)
    (hwf : inp.data.length = inp.rows * inp.cols) :
    m.metricNormalize inp = some { inp with
      data := inp.data.map fun v => (255 / m.objMaxSpeed) * clipSpeed m.objMaxSpeed v } := by
  obtain ⟨m1, h1, hr, hc, hch, hl, hk⟩ :=
    clipRows_spec m.objMaxSpeed inp.rows 0 inp (by rw [hwf]; simp)
  have hdata : m1.data = inp.data.map (clipSpeed m.objMaxSpeed) := by
    apply List.ext_getElem?
    intro k
    rw [hk k, List.getElem?_map]
    by_cases hlt : k < inp.data.length
    · rw [if_pos (by rw [hwf] at hlt; simpa using hlt)]
    · rw [if_neg (by rw [hwf] at hlt; simpa using hlt)]
      simp [List.getElem?_eq_none (Nat.le_of_not_lt hlt)]
  simp only [MotionDetector.metricNormalize, h1]
  cases m1
  simp only at hr hc hch hdata
  subst hr hc hch hdata
  simp [List.map_map, Function.comp]

/-- C9: for a positive `objMaxSpeed` and a one-channel speed matrix,
`MotionDetector::metricNormalize` completes, keeps the dimensions, and at every
pixel `(i, j)` an entry above `objMaxSpeed` becomes exactly 255 and an entry equal
to zero becomes 0 (exact rational arithmetic). -/
theorem metricNormalize_clips_to_full_scale (m : MotionDetector) (inp : Mat)
    (hpos : 0 < m.objMaxSpeed) (hwf : inp.data.length = inp.rows * inp.cols) :
    ∃ out, m.metricNormalize inp = some out ∧ out.rows = inp.rows ∧ out.cols = inp.cols ∧
      ∀ i j, i < inp.rows → j < inp.cols →
        ∃ v w, inp.getAt i j = some v ∧ out.getAt i j = some w ∧
          (m.objMaxSpeed < v → w = 255) ∧ (v = 0 → w = 0) := by
  refine ⟨_, metricNormalize_eq m inp hwf, rfl, rfl, ?_⟩
  intro i j hi hj
  have hlt : i * inp.cols + j < inp.data.length := by
    rw [hwf]
    calc i * inp.cols + j < i * inp.cols + inp.cols := by omega
      _ = (i + 1) * inp.cols := by ring
      _ ≤ inp.rows * inp.cols := Nat.mul_le_mul_right _ hi
  refine ⟨inp.data[i * inp.cols + j],
    (255 / m.objMaxSpeed) * clipSpeed m.objMaxSpeed inp.data[i * inp.cols + j],
    by simp [Mat.getAt, hlt], by
    simp only [Mat.getAt, List.getElem?_map, List.getElem?_eq_getElem hlt, Option.map_some'],
    ?_, ?_⟩
  · intro hv
    have hne : m.objMaxSpeed ≠ 0 := ne_of_gt hpos
    simp only [clipSpeed, gt_iff_lt, hv, if_true]
    field_simp
  · intro hv
    have hnot : ¬ (0 > m.objMaxSpeed) := not_lt.mpr (le_of_lt hpos)
    simp [clipSpeed, hv, hnot]

theorem metricNormalize_clips_to_full_scale_witness :
    ∃ out, (⟨0, 0, false, Mat.blank, 10, 1, 1, 0⟩ : MotionDetector).metricNormalize
        ⟨1, 2, 1, [25, 0]⟩ = some out ∧ out.rows = 1 ∧ out.cols = 2 ∧
      ∀ i j, i < 1 → j < 2 →
        ∃ v w, (⟨1, 2, 1, [25, 0]⟩ : Mat).getAt i j = some v ∧ out.getAt i j = some w ∧
          ((10 : ℚ) < v → w = 255) ∧ (v = 0 → w = 0) :=
  metricNormalize_clips_to_full_scale ⟨0, 0, false, Mat.blank, 10, 1, 1, 0⟩ ⟨1, 2, 1, [25, 0]⟩
    (by norm_num) (by decide)

/-- C8 (failing input): with no previous frame stored, `MotionDetector::detect`
stores the grayscale frame, returns an all-zero three-channel image of the
frame's size, and hands back the caller's object list as it was: a non-empty
list stays non-empty. -/
theorem detect_first_frame_keeps_objects (P : Prims) (m : MotionDetector) (imgSt : ImageSet)
    (output : Mat) (obj : Object) (objs : List Object) (fov : List Object) :
    (({ m with old_frame := Mat.blank }).detect P imgSt output (obj :: objs) fov).map
        (fun (r : MotionDetector × Mat × List Object) => (r.1.old_frame, r.2.1, r.2.2))
      = some (P.cvtColorRGB2GRAY imgSt.image,
          Mat.zeros imgSt.image.rows imgSt.image.cols 3, obj :: objs) ∧
    obj :: objs ≠ [] := by
  refine ⟨?_, by simp⟩
  by_cases h : m.focalLengthSet <;>
    simp [MotionDetector.detect, Mat.empty, Mat.blank, h, MotionDetector.setFocalLength]

/-- C5 (failing input): a 2 x 2 frame, focal length 1, the corners
`(0,0), (2,0), (2,2), (0,2)`, the camera at planar position `(4, 1)` and altitude
1.  At pixel `(1, 1)` the ground position is `(1, 1)`, so `x - X = 3`: the source
writes `sqrt(3 + 0 + 1) / sqrt(1)`, the specified coefficient is
`sqrt(9 + 0 + 1) / sqrt(1)`. -/
theorem calcNormCoeffMat_numerator_not_squared (P : Prims) (obj : Object) :
    (({ hva := 0, fl := 1, focalLengthSet := true, old_frame := Mat.zeros 2 2 1,
        objMaxSpeed := 1, minimumDetectionSpeed := 0, objectSizeUpLimit := 1,
        objectSizeLowLimit := 0 } : MotionDetector).calcNormCoeffMat
        { P with LatLonToUTMXY := fun _ _ => (4, 1) }
        [{ obj with location := ⟨0, 0⟩ }, { obj with location := ⟨2, 0⟩ },
         { obj with location := ⟨2, 2⟩ }, { obj with location := ⟨0, 2⟩ }]
        0 0 1 (Mat.zeros 2 2 1) (Mat.zeros 2 2 1)).bind (fun r => r.1.getAt 1 1)
      = some (P.sqrt 4 / P.sqrt 1) ∧
    pixelGround ⟨0, 0⟩ ⟨2, 0⟩ ⟨2, 2⟩ ⟨0, 2⟩ 2 2 1 1 = (1, 1) ∧
    xCoeffSpec P 1 4 1 1 1 1 2 2 1 1 = P.sqrt 10 / P.sqrt 1 := by
  refine ⟨?_, ?_, ?_⟩
  · simp [MotionDetector.calcNormCoeffMat, coeffRows, coeffCols, Mat.setAt, Mat.getAt,
      Mat.zeros, xCoeff, yCoeff, pixelGround, pixelOpticalDistance]
  · simp [pixelGround]
  · simp [xCoeffSpec]
    norm_num

/-! ## sweeper.cpp : theorems -/

theorem markClose_cons (x1 y1 : ℚ) (q : boost2dPoint) (l : List boost2dPoint) (hl : l ≠ [])
    (j : Nat) (marks : List Bool) :
    markClose x1 y1 (q :: l) j marks =
      if dist x1 y1 q.x q.y < weldThreshold then
        if j < marks.length then markClose x1 y1 l (j + 1) (marks.set j true) else none
      else markClose x1 y1 l (j + 1) marks := by
  cases l with
  | nil => exact absurd rfl hl
  | cons r rest => simp [markClose]

theorem markClose_eq (x1 y1 : ℚ) (last : boost2dPoint) :
    ∀ (qs : List boost2dPoint) (pre mb post : List Bool), mb.length = qs.length →
      markClose x1 y1 (qs ++ [last]) pre.length (pre ++ mb ++ post)
        = some (pre ++ orClose x1 y1 qs mb ++ post) := by
  intro qs
  induction qs with
  | nil =>
    intro pre mb post hlen
    have : mb = [] := List.length_eq_zero.mp hlen
    subst this
    simp [markClose, orClose]
  | cons q qs ih =>
    intro pre mb post hlen
    cases mb with
    | nil => simp at hlen
    | cons m ms =>
      have hlen1 : ms.length = qs.length := by simpa using hlen
      rw [List.cons_append, markClose_cons x1 y1 q (qs ++ [last]) (by simp)]
      have hj : pre.length < (pre ++ m :: ms ++ post).length := by simp
      by_cases hc : dist x1 y1 q.x q.y < weldThreshold
      · have hset : (pre ++ m :: ms ++ post).set pre.length true
            = (pre ++ [true]) ++ ms ++ post := by
          simp [List.set_append]
        rw [if_pos hc, if_pos hj, hset]
        have := ih (pre ++ [true]) ms post hlen1
        simp only [List.length_append, List.length_singleton] at this
        rw [this]
        simp [orClose, closeTo, hc]
      · rw [if_neg hc]
        have hre : pre ++ m :: ms ++ post = (pre ++ [m]) ++ ms ++ post := by simp
        rw [hre]
        have := ih (pre ++ [m]) ms post hlen1
        simp only [List.length_append, List.length_singleton] at this
        rw [this]
        simp [orClose, closeTo, hc]

theorem getElem_append_cons_length {α : Type} (pre : List α) (m : α) (rest : List α) :
    (pre ++ m :: rest)[pre.length]? = some m := by
  induction pre with
  | nil => simp
  | cons a pre ih => simpa using ih

theorem orClose_length (x1 y1 : ℚ) :
    ∀ (qs : List boost2dPoint) (ms : List Bool), ms.length = qs.length →
      (orClose x1 y1 qs ms).length = qs.length := by
  intro qs
  induction qs with
  | nil => intro ms _; cases ms <;> simp [orClose]
  | cons q qs ih =>
    intro ms h
    cases ms with
    | nil => simp at h
    | cons m ms => simp [orClose, ih ms (by simpa using h)]

theorem passMarks_length :
    ∀ (ps : List boost2dPoint) (ms : List Bool), ms.length = ps.length →
      (passMarks ps ms).length = ps.length := by
  intro ps
  induction ps with
  | nil => intro ms _; cases ms <;> simp [passMarks]
  | cons p ps ih =>
    intro ms h
    cases ms with
    | nil => simp at h
    | cons m ms =>
      have h1 : ms.length = ps.length := by simpa using h
      cases m
      · simp [passMarks, ih _ (orClose_length p.x p.y ps ms h1)]
      · simp [passMarks, ih ms h1]

theorem markPass_cons (p : boost2dPoint) (l : List boost2dPoint) (hl : l ≠ [])
    (i : Nat) (marks : List Bool) :
    markPass (p :: l) i marks =
      match marks[i]? with
      | none => none
      | some true => markPass l (i + 1) marks
      | some false =>
        match markClose p.x p.y l (i + 1) marks with
        | none => none
        | some marks1 => markPass l (i + 1) marks1 := by
  cases l with
  | nil => exact absurd rfl hl
  | cons r rest => simp [markPass]

theorem markPass_eq (last : boost2dPoint) :
    ∀ (body : List boost2dPoint) (pre mb post : List Bool), mb.length = body.length →
      markPass (body ++ [last]) pre.length (pre ++ mb ++ post)
        = some (pre ++ passMarks body mb ++ post) := by
  intro body
  induction body with
  | nil =>
    intro pre mb post hlen
    have : mb = [] := List.length_eq_zero.mp hlen
    subst this
    simp [markPass, passMarks]
  | cons p ps ih =>
    intro pre mb post hlen
    cases mb with
    | nil => simp at hlen
    | cons m ms =>
      have hlen1 : ms.length = ps.length := by simpa using hlen
      have hget : (pre ++ m :: ms ++ post)[pre.length]? = some m := by
        rw [List.append_assoc, List.cons_append]
        exact getElem_append_cons_length pre m (ms ++ post)
      have hre : pre ++ m :: ms ++ post = (pre ++ [m]) ++ ms ++ post := by simp
      rw [List.cons_append, markPass_cons p (ps ++ [last]) (by simp), hget]
      cases m
      · have hc := markClose_eq p.x p.y last ps (pre ++ [false]) ms post hlen1
        simp only [List.length_append, List.length_singleton] at hc
        have hp := ih (pre ++ [false]) (orClose p.x p.y ps ms) post
          (orClose_length p.x p.y ps ms hlen1)
        simp only [List.length_append, List.length_singleton] at hp
        simp only [hre, hc, hp]
        simp [passMarks]
      · have hp := ih (pre ++ [true]) ms post hlen1
        simp only [List.length_append, List.length_singleton] at hp
        simp only [hre, hp]
        simp [passMarks]

theorem keepUnmarked_eq :
    ∀ (ring : List boost2dPoint) (pre ms : List Bool), ms.length = ring.length →
      keepUnmarked ring pre.length (pre ++ ms) = some (keepMarks ring ms) := by
  intro ring
  induction ring with
  | nil => intro pre ms _; cases ms <;> simp [keepUnmarked, keepMarks]
  | cons p ps ih =>
    intro pre ms hlen
    cases ms with
    | nil => simp at hlen
    | cons m ms =>
      have hlen1 : ms.length = ps.length := by simpa using hlen
      have hget : (pre ++ m :: ms)[pre.length]? = some m :=
        getElem_append_cons_length pre m ms
      have hre : pre ++ m :: ms = (pre ++ [m]) ++ ms := by simp
      have hp := ih (pre ++ [m]) ms hlen1
      simp only [List.length_append, List.length_singleton] at hp
      cases m
      · simp only [keepUnmarked, hget]
        rw [hre, hp]
        simp [keepMarks]
      · simp only [keepUnmarked, hget]
        rw [hre, hp]
        simp [keepMarks]

theorem weld_nil : weld [] = [] := by
  rw [weld]

theorem weld_cons (p : boost2dPoint) (rest : List boost2dPoint) :
    weld (p :: rest) = p :: weld (rest.filter fun q => !closeTo p.x p.y q) := by
  rw [weld]

theorem keepMarks_orClose (x1 y1 : ℚ) :
    ∀ (ps : List boost2dPoint) (ms : List Bool),
      keepMarks ps (orClose x1 y1 ps ms)
        = (keepMarks ps ms).filter fun q => !closeTo x1 y1 q := by
  intro ps
  induction ps with
  | nil => intro ms; cases ms <;> simp [keepMarks, orClose]
  | cons p ps ih =>
    intro ms
    cases ms with
    | nil => simp [keepMarks, orClose]
    | cons m ms =>
      cases m <;> cases hc : closeTo x1 y1 p <;>
        simp [keepMarks, orClose, hc, ih ms, List.filter_cons]

theorem keepMarks_passMarks :
    ∀ (ps : List boost2dPoint) (ms : List Bool),
      keepMarks ps (passMarks ps ms) = weld (keepMarks ps ms) := by
  intro ps
  induction ps with
  | nil => intro ms; cases ms <;> simp [keepMarks, passMarks, weld_nil]
  | cons p ps ih =>
    intro ms
    cases ms with
    | nil => simp [keepMarks, passMarks, weld_nil]
    | cons m ms =>
      cases m
      · simp only [passMarks, keepMarks, Bool.false_eq_true, if_false]
        rw [ih, keepMarks_orClose, weld_cons]
      · simp only [passMarks, keepMarks, if_true]
        exact ih ms

theorem keepMarks_all_false :
    ∀ ps : List boost2dPoint, keepMarks ps (List.replicate ps.length false) = ps := by
  intro ps
  induction ps with
  | nil => simp [keepMarks]
  | cons p ps ih => simp [keepMarks, List.replicate_succ, ih]

theorem keepMarks_append_last (last : boost2dPoint) :
    ∀ (ps : List boost2dPoint) (ms : List Bool), ms.length = ps.length →
      keepMarks (ps ++ [last]) (ms ++ [false]) = keepMarks ps ms ++ [last] := by
  intro ps
  induction ps with
  | nil =>
    intro ms h
    have : ms = [] := List.length_eq_zero.mp h
    subst this
    simp [keepMarks]
  | cons p ps ih =>
    intro ms h
    cases ms with
    | nil => simp at h
    | cons m ms =>
      have h1 : ms.length = ps.length := by simpa using h
      cases m <;> simp [keepMarks, ih ms h1]

/-- The welding of a ring `body ++ [last]`: it completes, the final vertex is
kept, and the other vertices are welded greedily. -/
theorem refineRing_eq (body : List boost2dPoint) (last : boost2dPoint) :
    refineRing (body ++ [last]) = some (weld body ++ [last]) := by
  have hrep : List.replicate (body ++ [last]).length false
      = [] ++ List.replicate body.length false ++ [false] := by
    simp [List.replicate_succ']
  have hm := markPass_eq last body [] (List.replicate body.length false) [false] (by simp)
  have hk := keepUnmarked_eq (body ++ [last]) []
    (passMarks body (List.replicate body.length false) ++ [false])
    (by simp [passMarks_length body _ (List.length_replicate _ _)])
  simp only [List.length_nil, List.nil_append] at hm hk
  unfold refineRing
  rw [hrep]
  simp only [List.nil_append, hm, hk]
  rw [keepMarks_append_last last body _ (passMarks_length body _ (List.length_replicate _ _)),
    keepMarks_passMarks, keepMarks_all_false]

theorem weld_subset :
    ∀ (n : Nat) (l : List boost2dPoint), l.length ≤ n → ∀ x ∈ weld l, x ∈ l := by
  intro n
  induction n with
  | zero =>
    intro l hl x hx
    have : l = [] := List.length_eq_zero.mp (Nat.le_zero.mp hl)
    subst this
    simp [weld_nil] at hx
  | succ n ih =>
    intro l hl x hx
    cases l with
    | nil => simp [weld_nil] at hx
    | cons p rest =>
      rw [weld_cons] at hx
      rcases List.mem_cons.mp hx with h | h
      · exact h ▸ List.mem_cons_self _ _
      · have hlen : (rest.filter fun q => !closeTo p.x p.y q).length ≤ n :=
          le_trans (List.length_filter_le _ _) (by simpa using hl)
        exact List.mem_cons_of_mem _ (List.mem_of_mem_filter (ih _ hlen x h))

theorem weld_pairwise :
    ∀ (n : Nat) (l : List boost2dPoint), l.length ≤ n →
      (weld l).Pairwise fun a b => closeTo a.x a.y b = false := by
  intro n
  induction n with
  | zero =>
    intro l hl
    have : l = [] := List.length_eq_zero.mp (Nat.le_zero.mp hl)
    subst this
    simp [weld_nil]
  | succ n ih =>
    intro l hl
    cases l with
    | nil => simp [weld_nil]
    | cons p rest =>
      have hlen : (rest.filter fun q => !closeTo p.x p.y q).length ≤ n :=
        le_trans (List.length_filter_le _ _) (by simpa using hl)
      rw [weld_cons, List.pairwise_cons]
      refine ⟨?_, ih _ hlen⟩
      intro b hb
      have hb1 := weld_subset _ _ (le_refl _) b hb
      simpa using (List.mem_filter.mp hb1).2

theorem weld_of_pairwise :
    ∀ l : List boost2dPoint, (l.Pairwise fun a b => closeTo a.x a.y b = false) → weld l = l := by
  intro l
  induction l with
  | nil => intro _; exact weld_nil
  | cons p rest ih =>
    intro h
    rw [List.pairwise_cons] at h
    have hf : (rest.filter fun q => !closeTo p.x p.y q) = rest := by
      apply List.filter_eq_self.mpr
      intro q hq
      simp [h.1 q hq]
    rw [weld_cons, hf, ih h.2]

theorem weld_idem (l : List boost2dPoint) : weld (weld l) = weld l :=
  weld_of_pairwise _ (weld_pairwise _ l (le_refl _))

/-- C7: for every polygon whose exterior ring has at least one vertex,
`Sweeper::refineLocations` completes, and applied to its own result it completes
and returns that result unchanged. -/
theorem refineLocations_idempotent (points : polygon) (h : points.outer ≠ []) :
    ∃ welded, refineLocations points = some welded ∧
      refineLocations welded = some welded := by
  have href : refineRing points.outer
      = some (weld points.outer.dropLast ++ [points.outer.getLast h]) := by
    have hsplit := refineRing_eq points.outer.dropLast (points.outer.getLast h)
    rwa [List.dropLast_append_getLast h] at hsplit
  refine ⟨⟨weld points.outer.dropLast ++ [points.outer.getLast h], []⟩, ?_, ?_⟩
  · unfold refineLocations
    rw [href]
    simp
  · unfold refineLocations
    simp only [refineRing_eq, weld_idem, Option.map_some']

theorem refineLocations_idempotent_witness :
    ∃ welded, refineLocations ⟨[⟨0, 0⟩, ⟨1, 0⟩, ⟨1 / 100000, 0⟩, ⟨1, 1⟩, ⟨0, 0⟩], []⟩
        = some welded ∧ refineLocations welded = some welded :=
  refineLocations_idempotent ⟨[⟨0, 0⟩, ⟨1, 0⟩, ⟨1 / 100000, 0⟩, ⟨1, 1⟩, ⟨0, 0⟩], []⟩ (by simp)

/-- C6 (as amended): for a non-empty footprint the ring handed to
`boost::geometry::correct` by `Sweeper::update` is the footprint's points in
order followed by a repetition of the last point; on the first call the
corrected polygon becomes the cumulative area. -/
theorem update_ring_repeats_last_point (fov_loc : List Location) (h : fov_loc ≠ []) :
    appendedRing fov_loc = some (fov_loc.map toPoint ++ [toPoint (fov_loc.getLast h)]) ∧
    ∀ (G : Geom) (s : Sweeper) (output : List Location), s.isFirstPolygon = true →
      s.update G fov_loc output
        = some ({ sweeped_area :=
                    G.correct ⟨fov_loc.map toPoint ++ [toPoint (fov_loc.getLast h)], []⟩,
                  isFirstPolygon := false }, fov_loc) := by
  have hr : appendedRing fov_loc
      = some (fov_loc.map toPoint ++ [toPoint (fov_loc.getLast h)]) := by
    simp [appendedRing, List.getLast?_eq_getLast _ h]
  refine ⟨hr, ?_⟩
  intro G s output hfirst
  simp [Sweeper.update, hr, hfirst]

theorem update_ring_repeats_last_point_witness :
    appendedRing [⟨0, 0, 0, 0⟩, ⟨0, 1, 0, 0⟩, ⟨1, 1, 0, 0⟩, ⟨1, 0, 0, 0⟩]
      = some [⟨0, 0⟩, ⟨1, 0⟩, ⟨1, 1⟩, ⟨0, 1⟩, ⟨0, 1⟩] := by
  have h := (update_ring_repeats_last_point
    [⟨0, 0, 0, 0⟩, ⟨0, 1, 0, 0⟩, ⟨1, 1, 0, 0⟩, ⟨1, 0, 0, 0⟩] (by simp)).1
  simpa [toPoint] using h

/-- C6 (counterexample): for the footprint `p0 = (lat 0, lng 0)`,
`p1 = (lat 0, lng 1)` the ring handed to `boost::geometry::correct` ends with a
repetition of `p1`, not of the first point `p0`. -/
theorem update_ring_does_not_repeat_first_point :
    appendedRing [⟨0, 0, 0, 0⟩, ⟨0, 1, 0, 0⟩] = some [⟨0, 0⟩, ⟨1, 0⟩, ⟨1, 0⟩] ∧
    appendedRing [⟨0, 0, 0, 0⟩, ⟨0, 1, 0, 0⟩]
      ≠ some (([⟨0, 0, 0, 0⟩, ⟨0, 1, 0, 0⟩] : List Location).map toPoint
          ++ [toPoint ⟨0, 0, 0, 0⟩]) := by
  constructor
  · simp [appendedRing, toPoint]
  · simp [appendedRing, toPoint]

theorem weld_of_farApart (l : List boost2dPoint) (h : l.Pairwise farApart) : weld l = l := by
  apply weld_of_pairwise
  refine h.imp ?_
  intro a b hab
  simpa [closeTo, farApart] using hab

theorem unwelded_step {Ω : Type} (G : Geom) (region : polygon → Set Ω) (area : Set Ω → ℚ)
    (s : Sweeper) (hs : s.isFirstPolygon = false) (f : List Location)
    (fs : List (List Location)) (hrun : UnweldedRun G region area s (f :: fs)) :
    ∃ u out, s.update G f [] = some (⟨u, false⟩, out) ∧
      region u = region s.sweeped_area ∪ footprintRegion G region f ∧
      area (region u) = polygonArea u ∧
      UnweldedRun G region area ⟨u, false⟩ fs := by
  simp only [UnweldedRun, hs, Bool.false_eq_true, if_false] at hrun
  obtain ⟨ring, hring, u, others, hunion, hreg, harea, hinn, hne, hfar, hrest⟩ := hrun
  have href : refineRing u.outer = some u.outer := by
    have h1 := refineRing_eq u.outer.dropLast (u.outer.getLast hne)
    rw [weld_of_farApart _ hfar, List.dropLast_append_getLast hne] at h1
    exact h1
  have hu : (⟨u.outer, []⟩ : polygon) = u := by
    cases u
    simp only at hinn
    subst hinn
    rfl
  refine ⟨u, u.outer.map toLocation, ?_, ?_, harea, hrest⟩
  · cases s with
    | mk area0 first0 =>
      simp only at hs
      subst hs
      simp [Sweeper.update, hring, hunion, refineLocations, href, hu]
  · simpa [footprintRegion, hring] using hreg

theorem unwelded_run_invariant {Ω : Type} (G : Geom) (region : polygon → Set Ω)
    (area : Set Ω → ℚ) (hmono : ∀ A B : Set Ω, A ⊆ B → area A ≤ area B)
    (f : List Location) (post : List (List Location)) :
    ∀ (pre : List (List Location)) (s : Sweeper), s.isFirstPolygon = false →
      area (region s.sweeped_area) = polygonArea s.sweeped_area →
      UnweldedRun G region area s (pre ++ f :: post) →
      ∃ s1 s2 out, Sweeper.updates G s pre = some s1 ∧
        s1.update G f [] = some (s2, out) ∧
        region s2.sweeped_area
          = region s.sweeped_area ∪ footprintsRegion G region (pre ++ [f]) ∧
        area (region s2.sweeped_area) = polygonArea s2.sweeped_area ∧
        polygonArea s1.sweeped_area ≤ polygonArea s2.sweeped_area := by
  intro pre
  induction pre with
  | nil =>
    intro s hs hcons hrun
    obtain ⟨u, out, hupd, hreg, harea, _⟩ := unwelded_step G region area s hs f post hrun
    refine ⟨s, ⟨u, false⟩, out, rfl, hupd, ?_, harea, ?_⟩
    · simpa [footprintsRegion] using hreg
    · rw [← hcons, ← harea, hreg]
      exact hmono _ _ Set.subset_union_left
  | cons g pre ih =>
    intro s hs _ hrun
    obtain ⟨u, out, hupd, hreg, harea, hrest⟩ :=
      unwelded_step G region area s hs g (pre ++ f :: post) hrun
    obtain ⟨s1, s2, out2, h1, h2, hreg2, harea2, hle⟩ := ih ⟨u, false⟩ rfl harea hrest
    refine ⟨s1, s2, out2, ?_, h2, ?_, harea2, hle⟩
    · simp only [Sweeper.updates, hupd]
      exact h1
    · rw [hreg2]
      show region u ∪ footprintsRegion G region (pre ++ [f])
        = region s.sweeped_area
          ∪ (footprintRegion G region g ∪ footprintsRegion G region (pre ++ [f]))
      rw [hreg, Set.union_assoc]

theorem first_update_stores_footprint (G : Geom) (f : List Location)
    (ring : List boost2dPoint) (hring : appendedRing f = some ring) :
    Sweeper.init.update G f [] = some (⟨G.correct ⟨ring, []⟩, false⟩, f) := by
  simp [Sweeper.update, Sweeper.init, hring]

/-- C10 (as amended): take any assignment `region` of covered ground to polygons
and any monotone `area` of ground sets with `area ∅ = 0`, and a sequence of
footprints fed to `Sweeper::update` from the initial state such that
(`UnweldedRun`) every stored polygon has the shoelace area of the ground it
covers and, on every update after the first, the union primitive returns a
first polygon that covers exactly the ground of the coverage so far and of the
new footprint, has no interior ring, and has its non-final vertices pairwise at
squared distance of at least `0.00002^2`.  Then every update completes, the
area of the cumulative polygon after it is at least its area before it, and it
does not exceed the area of the union of all footprints supplied so far (whose
ground it covers exactly). -/
theorem coverage_area_monotone_when_unwelded {Ω : Type} (G : Geom)
    (region : polygon → Set Ω) (area : Set Ω → ℚ)
    (hmono : ∀ A B : Set Ω, A ⊆ B → area A ≤ area B) (hzero : area ∅ = 0)
    (footprints pre : List (List Location)) (f : List Location)
    (post : List (List Location)) (hsplit : footprints = pre ++ f :: post)
    (hrun : UnweldedRun G region area Sweeper.init footprints) :
    ∃ s1 s2 out, Sweeper.updates G Sweeper.init pre = some s1 ∧
      s1.update G f [] = some (s2, out) ∧
      polygonArea s1.sweeped_area ≤ polygonArea s2.sweeped_area ∧
      polygonArea s2.sweeped_area ≤ area (footprintsRegion G region (pre ++ [f])) ∧
      region s2.sweeped_area = footprintsRegion G region (pre ++ [f]) := by
  subst hsplit
  cases pre with
  | nil =>
    simp only [List.nil_append, UnweldedRun, Sweeper.init, if_true] at hrun
    obtain ⟨ring, hring, harea, _⟩ := hrun
    have hreg : region (G.correct ⟨ring, []⟩) = footprintsRegion G region ([] ++ [f]) := by
      simp [footprintsRegion, footprintRegion, hring]
    refine ⟨Sweeper.init, ⟨G.correct ⟨ring, []⟩, false⟩, f, rfl,
      first_update_stores_footprint G f ring hring, ?_, ?_, hreg⟩
    · have h0 : polygonArea Sweeper.init.sweeped_area = 0 := by
        simp [polygonArea, ringArea, shoelace, fabs, Sweeper.init]
      rw [h0, ← hzero]
      show area ∅ ≤ polygonArea (G.correct ⟨ring, []⟩)
      rw [← harea]
      exact hmono _ _ (Set.empty_subset _)
    · show polygonArea (G.correct ⟨ring, []⟩) ≤ _
      rw [← harea, hreg]
  | cons f0 pre =>
    simp only [List.cons_append, UnweldedRun, Sweeper.init, if_true] at hrun
    obtain ⟨ring, hring, harea, hrest⟩ := hrun
    obtain ⟨s1, s2, out, h1, h2, hreg2, harea2, hle⟩ :=
      unwelded_run_invariant G region area hmono f post pre
        ⟨G.correct ⟨ring, []⟩, false⟩ rfl harea hrest
    have hreg : region s2.sweeped_area = footprintsRegion G region (f0 :: pre ++ [f]) := by
      rw [hreg2]
      simp [footprintsRegion, footprintRegion, hring]
    refine ⟨s1, s2, out, ?_, h2, hle, ?_, hreg⟩
    · simp only [Sweeper.updates, first_update_stores_footprint G f0 ring hring]
      exact h1
    · rw [← harea2, hreg]

/-- C10 (counterexample): the thin clockwise footprint
`(0,0), (1, 1/200000), (2,0), (1, -1/200000)` submitted twice.  After the first
update the cumulative polygon has area `1/100000`.  The second update welds the
fourth corner onto the second (they are `1/100000` apart), leaving the triangle
`(0,0), (1, 1/200000), (2,0)` of area `1/200000`: the area decreased. -/
theorem coverage_area_shrinks_when_welded :
    ((Sweeper.init.update coveredGeom
        [⟨0, 0, 0, 0⟩, ⟨1 / 200000, 1, 0, 0⟩, ⟨0, 2, 0, 0⟩, ⟨-1 / 200000, 1, 0, 0⟩] []).bind
      fun r1 => (r1.1.update coveredGeom
        [⟨0, 0, 0, 0⟩, ⟨1 / 200000, 1, 0, 0⟩, ⟨0, 2, 0, 0⟩, ⟨-1 / 200000, 1, 0, 0⟩] r1.2).map
        fun r2 => (polygonArea r1.1.sweeped_area, r2.1.sweeped_area,
          polygonArea r2.1.sweeped_area))
      = some (1 / 100000, ⟨[⟨0, 0⟩, ⟨1, 1 / 200000⟩, ⟨2, 0⟩, ⟨0, 0⟩], []⟩, 1 / 200000) ∧
    (1 / 200000 : ℚ) < 1 / 100000 := by
  constructor
  · simp [Sweeper.update, Sweeper.init, coveredGeom, appendedRing, closeRing, toPoint,
      refineLocations, refineRing, markPass, markClose, keepUnmarked, dist, weldThreshold,
      polygonArea, ringArea, shoelace, fabs]
    norm_num [shoelace]
  · norm_num

theorem orClose_getElem (x1 y1 : ℚ) :
    ∀ (qs : List boost2dPoint) (ms : List Bool) (k : Nat) (q : boost2dPoint) (m : Bool),
      qs[k]? = some q → ms[k]? = some m →
        (orClose x1 y1 qs ms)[k]? = some (m || closeTo x1 y1 q) := by
  intro qs
  induction qs with
  | nil => intro ms k q m hq _; simp at hq
  | cons q0 qs ih =>
    intro ms k q m hq hm
    cases ms with
    | nil => simp at hm
    | cons m0 ms =>
      cases k with
      | zero =>
        simp only [List.getElem?_cons_zero, Option.some.injEq] at hq hm
        subst hq hm
        simp [orClose]
      | succ k =>
        simp only [List.getElem?_cons_succ] at hq hm
        simpa [orClose] using ih ms k q m hq hm

theorem passMarks_mark_iff :
    ∀ (ps : List boost2dPoint) (ms : List Bool), ms.length = ps.length →
      ∀ (j : Nat) (b : boost2dPoint), ps[j]? = some b →
        ((passMarks ps ms)[j]? = some true ↔
          ms[j]? = some true ∨
            ∃ i a, i < j ∧ (passMarks ps ms)[i]? = some false ∧ ps[i]? = some a ∧
              closeTo a.x a.y b = true) := by
  intro ps
  induction ps with
  | nil => intro ms _ j b hb; simp at hb
  | cons p ps ih =>
    intro ms hlen j b hb
    cases ms with
    | nil => simp at hlen
    | cons m ms =>
      have h1 : ms.length = ps.length := by simpa using hlen
      cases m with
      | false =>
        have hF : passMarks (p :: ps) (false :: ms)
            = false :: passMarks ps (orClose p.x p.y ps ms) := by simp [passMarks]
        rw [hF]
        cases j with
        | zero =>
          constructor
          · intro h; simp at h
          · intro h
            rcases h with h | ⟨i, a, hi, _⟩
            · simp at h
            · omega
        | succ j =>
          simp only [List.getElem?_cons_succ] at hb ⊢
          have hjlt : j < ms.length := by
            rw [h1]
            exact (List.getElem?_eq_some.mp hb).1
          have hmj : ms[j]? = some ms[j] := List.getElem?_eq_getElem hjlt
          have hor := orClose_getElem p.x p.y ps ms j b ms[j] hb hmj
          rw [ih (orClose p.x p.y ps ms) (orClose_length p.x p.y ps ms h1) j b hb, hor]
          constructor
          · intro h
            rcases h with h | ⟨i, a, hi, hFi, hai, hc⟩
            · simp only [Option.some.injEq, Bool.or_eq_true] at h
              rcases h with h | h
              · left; rw [hmj, h]
              · right
                exact ⟨0, p, by omega, by simp, by simp, h⟩
            · right
              exact ⟨i + 1, a, by omega, by simpa using hFi, by simpa using hai, hc⟩
          · intro h
            rcases h with h | ⟨i, a, hi, hFi, hai, hc⟩
            · left
              rw [hmj] at h
              simp only [Option.some.injEq] at h
              simp [h]
            · cases i with
              | zero =>
                left
                simp only [List.getElem?_cons_zero, Option.some.injEq] at hai
                subst hai
                simp [hc]
              | succ i =>
                right
                exact ⟨i, a, by omega, by simpa using hFi, by simpa using hai, hc⟩
      | true =>
        have hF : passMarks (p :: ps) (true :: ms) = true :: passMarks ps ms := by
          simp [passMarks]
        rw [hF]
        cases j with
        | zero =>
          constructor
          · intro _; left; simp
          · intro _; simp
        | succ j =>
          simp only [List.getElem?_cons_succ] at hb ⊢
          rw [ih ms h1 j b hb]
          constructor
          · intro h
            rcases h with h | ⟨i, a, hi, hFi, hai, hc⟩
            · left; exact h
            · right
              exact ⟨i + 1, a, by omega, by simpa using hFi, by simpa using hai, hc⟩
          · intro h
            rcases h with h | ⟨i, a, hi, hFi, hai, hc⟩
            · left; exact h
            · cases i with
              | zero => simp at hFi
              | succ i =>
                right
                exact ⟨i, a, by omega, by simpa using hFi, by simpa using hai, hc⟩

theorem refineRing_marks (body : List boost2dPoint) (last : boost2dPoint) :
    refineRing (body ++ [last])
      = some (keepMarks (body ++ [last])
          (passMarks body (List.replicate body.length false) ++ [false])) := by
  have hrep : List.replicate (body ++ [last]).length false
      = [] ++ List.replicate body.length false ++ [false] := by
    simp [List.replicate_succ']
  have hm := markPass_eq last body [] (List.replicate body.length false) [false] (by simp)
  have hk := keepUnmarked_eq (body ++ [last]) []
    (passMarks body (List.replicate body.length false) ++ [false])
    (by simp [passMarks_length body _ (List.length_replicate _ _)])
  simp only [List.length_nil, List.nil_append] at hm hk
  unfold refineRing
  rw [hrep]
  simp only [List.nil_append, hm, hk]

theorem keepMarks_sublist :
    ∀ (ps : List boost2dPoint) (ms : List Bool), (keepMarks ps ms).Sublist ps := by
  intro ps
  induction ps with
  | nil => intro ms; cases ms <;> simp [keepMarks]
  | cons p ps ih =>
    intro ms
    cases ms with
    | nil => simp [keepMarks]
    | cons m ms =>
      cases m
      · simpa [keepMarks] using (ih ms).cons₂ p
      · simpa [keepMarks] using (ih ms).cons p

theorem weld_head (body : List boost2dPoint) (last : boost2dPoint) :
    (weld body ++ [last]).head? = (body ++ [last]).head? := by
  cases body with
  | nil => simp [weld_nil]
  | cons p rest => simp [weld_cons]

theorem weld_farApart (l : List boost2dPoint) : (weld l).Pairwise farApart := by
  refine (weld_pairwise _ l (le_refl _)).imp ?_
  intro a b hab
  simpa [closeTo, farApart] using hab

theorem passMarks_head_false (body : List boost2dPoint) :
    (passMarks body (List.replicate body.length false) ++ [false])[0]? = some false := by
  cases body with
  | nil => simp [passMarks]
  | cons p rest => simp [passMarks, List.replicate_succ]

/-- C11: for every polygon whose exterior ring has at least one vertex,
`Sweeper::refineLocations` completes and returns the subsequence of the ring
that leaves out the marked vertices, where the vertex at index `j` is marked
exactly when it is not the final vertex and some earlier unmarked (retained)
vertex, adjacent or not, is at squared distance (`Sweeper::dist`) below
`0.00002^2` from it; so the first and the final vertex are retained, and the
retained vertices other than the final one are pairwise at squared distance of
at least `0.00002^2`. -/
theorem refineLocations_drops_exactly_close_vertices (points : polygon)
    (h : points.outer ≠ []) :
    ∃ marks : List Bool, marks.length = points.outer.length ∧
      refineLocations points = some ⟨keepMarks points.outer marks, []⟩ ∧
      (keepMarks points.outer marks).Sublist points.outer ∧
      (∀ j b, points.outer[j]? = some b →
        (marks[j]? = some true ↔
          j + 1 < points.outer.length ∧
            ∃ i a, i < j ∧ marks[i]? = some false ∧ points.outer[i]? = some a ∧
              dist a.x a.y b.x b.y < weldThreshold)) ∧
      marks[0]? = some false ∧ marks[points.outer.length - 1]? = some false ∧
      (keepMarks points.outer marks).head? = points.outer.head? ∧
      (keepMarks points.outer marks).getLast? = points.outer.getLast? ∧
      (keepMarks points.outer marks).dropLast.Pairwise farApart := by
  obtain ⟨body, last, hsplit⟩ : ∃ body last, points.outer = body ++ [last] :=
    ⟨_, _, (List.dropLast_append_getLast h).symm⟩
  cases points with
  | mk outer inners =>
    simp only at hsplit h ⊢
    subst hsplit
    have hPlen : (passMarks body (List.replicate body.length false)).length = body.length :=
      passMarks_length body _ (List.length_replicate _ _)
    have hkeep : keepMarks (body ++ [last])
        (passMarks body (List.replicate body.length false) ++ [false])
          = weld body ++ [last] := by
      have h1 := refineRing_marks body last
      rw [refineRing_eq] at h1
      exact (Option.some.inj h1).symm
    have hlastmark : (passMarks body (List.replicate body.length false) ++ [false])[body.length]?
        = some false := by
      have := getElem_append_cons_length
        (passMarks body (List.replicate body.length false)) false []
      rwa [hPlen] at this
    refine ⟨passMarks body (List.replicate body.length false) ++ [false], ?_, ?_, ?_, ?_,
      passMarks_head_false body, ?_, ?_, ?_, ?_⟩
    · simp [hPlen]
    · simp [refineLocations, refineRing_marks]
    · exact keepMarks_sublist _ _
    · intro j b hb
      by_cases hj : j < body.length
      · have hb1 : body[j]? = some b := by
          rwa [List.getElem?_append_left hj] at hb
        have hmj : (passMarks body (List.replicate body.length false) ++ [false])[j]?
            = (passMarks body (List.replicate body.length false))[j]? :=
          List.getElem?_append_left (by rw [hPlen]; exact hj)
        have hfalse : (List.replicate body.length false)[j]? ≠ some true := by
          simp [List.getElem?_replicate, hj]
        rw [hmj, passMarks_mark_iff body _ (List.length_replicate _ _) j b hb1]
        constructor
        · intro hm
          rcases hm with hm | ⟨i, a, hi, hPi, hai, hc⟩
          · exact absurd hm hfalse
          · have hib : i < body.length := by omega
            refine ⟨by simp; omega, i, a, hi, ?_, ?_, ?_⟩
            · rw [List.getElem?_append_left (by rw [hPlen]; exact hib)]
              exact hPi
            · rw [List.getElem?_append_left hib]
              exact hai
            · simpa [closeTo] using hc
        · intro hm
          obtain ⟨_, i, a, hi, hPi, hai, hc⟩ := hm
          have hib : i < body.length := by omega
          right
          refine ⟨i, a, hi, ?_, ?_, ?_⟩
          · rwa [List.getElem?_append_left (by rw [hPlen]; exact hib)] at hPi
          · rwa [List.getElem?_append_left hib] at hai
          · simpa [closeTo] using hc
      · have hjlt : j < (body ++ [last]).length := (List.getElem?_eq_some.mp hb).1
        have hje : j = body.length := by
          simp only [List.length_append, List.length_singleton] at hjlt
          omega
        subst hje
        rw [hlastmark]
        constructor
        · intro hm; simp at hm
        · intro hm
          have := hm.1
          simp at this
    · simpa using hlastmark
    · rw [hkeep]
      exact weld_head body last
    · rw [hkeep]
      simp
    · rw [hkeep, List.dropLast_concat]
      exact weld_farApart body

theorem refineLocations_drops_exactly_close_vertices_witness :
    ∃ marks : List Bool, marks.length = 5 ∧
      refineLocations ⟨[⟨0, 0⟩, ⟨1, 0⟩, ⟨1 / 100000, 0⟩, ⟨1, 1⟩, ⟨0, 0⟩], []⟩
        = some ⟨keepMarks [⟨0, 0⟩, ⟨1, 0⟩, ⟨1 / 100000, 0⟩, ⟨1, 1⟩, ⟨0, 0⟩] marks, []⟩ ∧
      marks[0]? = some false ∧ marks[4]? = some false ∧
      refineLocations ⟨[⟨0, 0⟩, ⟨1, 0⟩, ⟨1 / 100000, 0⟩, ⟨1, 1⟩, ⟨0, 0⟩], []⟩
        = some ⟨[⟨0, 0⟩, ⟨1, 0⟩, ⟨1, 1⟩, ⟨0, 0⟩], []⟩ := by
  obtain ⟨marks, hlen, href, _, _, h0, hl, _⟩ :=
    refineLocations_drops_exactly_close_vertices
      ⟨[⟨0, 0⟩, ⟨1, 0⟩, ⟨1 / 100000, 0⟩, ⟨1, 1⟩, ⟨0, 0⟩], []⟩ (by simp)
  refine ⟨marks, hlen, href, h0, hl, ?_⟩
  simp [refineLocations, refineRing, markPass, markClose, keepUnmarked, dist, weldThreshold]
  norm_num

theorem coverage_area_monotone_when_unwelded_witness :
    ∃ s1 s2 out,
      Sweeper.updates boxGeom Sweeper.init
          [[⟨0, 0, 0, 0⟩, ⟨1, 0, 0, 0⟩, ⟨1, 2, 0, 0⟩, ⟨0, 2, 0, 0⟩]] = some s1 ∧
        s1.update boxGeom [⟨0, 1, 0, 0⟩, ⟨1, 1, 0, 0⟩, ⟨1, 3, 0, 0⟩, ⟨0, 3, 0, 0⟩] []
          = some (s2, out) ∧
        polygonArea s1.sweeped_area ≤ polygonArea s2.sweeped_area ∧
        polygonArea s1.sweeped_area = 2 ∧ polygonArea s2.sweeped_area = 3 := by
  have hP0 : boxRegion ⟨[⟨0, 0⟩, ⟨0, 1⟩, ⟨2, 1⟩, ⟨2, 0⟩, ⟨2, 0⟩, ⟨0, 0⟩], []⟩
      = { pt | 0 ≤ pt.1 ∧ pt.1 ≤ 2 ∧ 0 ≤ pt.2 ∧ pt.2 ≤ 1 } := by
    simp [boxRegion, lowest, highest]
  have hP1 : boxRegion ⟨[⟨1, 0⟩, ⟨1, 1⟩, ⟨3, 1⟩, ⟨3, 0⟩, ⟨3, 0⟩, ⟨1, 0⟩], []⟩
      = { pt | 1 ≤ pt.1 ∧ pt.1 ≤ 3 ∧ 0 ≤ pt.2 ∧ pt.2 ≤ 1 } := by
    simp [boxRegion, lowest, highest]
  have hU : boxRegion ⟨[⟨0, 0⟩, ⟨0, 1⟩, ⟨3, 1⟩, ⟨3, 0⟩, ⟨0, 0⟩], []⟩
      = { pt | 0 ≤ pt.1 ∧ pt.1 ≤ 3 ∧ 0 ≤ pt.2 ∧ pt.2 ≤ 1 } := by
    simp [boxRegion, lowest, highest]
  have hbox : boundingBox ([⟨0, 0⟩, ⟨0, 1⟩, ⟨2, 1⟩, ⟨2, 0⟩, ⟨2, 0⟩, ⟨0, 0⟩]
      ++ [⟨1, 0⟩, ⟨1, 1⟩, ⟨3, 1⟩, ⟨3, 0⟩, ⟨3, 0⟩, ⟨1, 0⟩])
      = ⟨[⟨0, 0⟩, ⟨0, 1⟩, ⟨3, 1⟩, ⟨3, 0⟩, ⟨0, 0⟩], []⟩ := by
    simp [boundingBox, lowest, highest]
    norm_num
  have hunion : ({ pt | 0 ≤ pt.1 ∧ pt.1 ≤ 3 ∧ 0 ≤ pt.2 ∧ pt.2 ≤ 1 } : Set (ℚ × ℚ))
      = { pt | 0 ≤ pt.1 ∧ pt.1 ≤ 2 ∧ 0 ≤ pt.2 ∧ pt.2 ≤ 1 }
        ∪ { pt | 1 ≤ pt.1 ∧ pt.1 ≤ 3 ∧ 0 ≤ pt.2 ∧ pt.2 ≤ 1 } := by
    ext pt
    simp only [Set.mem_setOf_eq, Set.mem_union]
    constructor
    · rintro ⟨h1, h2, h3, h4⟩
      rcases le_total pt.1 2 with h | h
      · exact Or.inl ⟨h1, h, h3, h4⟩
      · exact Or.inr ⟨by linarith, h2, h3, h4⟩
    · rintro (⟨h1, h2, h3, h4⟩ | ⟨h1, h2, h3, h4⟩)
      · exact ⟨h1, by linarith, h3, h4⟩
      · exact ⟨by linarith, h2, h3, h4⟩
  have hc0 : boxGeom.correct ⟨[⟨0, 0⟩, ⟨0, 1⟩, ⟨2, 1⟩, ⟨2, 0⟩, ⟨2, 0⟩], []⟩
      = ⟨[⟨0, 0⟩, ⟨0, 1⟩, ⟨2, 1⟩, ⟨2, 0⟩, ⟨2, 0⟩, ⟨0, 0⟩], []⟩ := by
    simp [boxGeom, closeRing]
  have hc1 : boxGeom.correct ⟨[⟨1, 0⟩, ⟨1, 1⟩, ⟨3, 1⟩, ⟨3, 0⟩, ⟨3, 0⟩], []⟩
      = ⟨[⟨1, 0⟩, ⟨1, 1⟩, ⟨3, 1⟩, ⟨3, 0⟩, ⟨3, 0⟩, ⟨1, 0⟩], []⟩ := by
    simp [boxGeom, closeRing]
  obtain ⟨s1, s2, out, h1, h2, hle, _⟩ :=
    coverage_area_monotone_when_unwelded boxGeom boxRegion
      (fun A => A.indicator (fun _ => (1 : ℚ)) (1 / 2, 1 / 2)
        + A.indicator (fun _ => (1 : ℚ)) (3 / 2, 1 / 2)
        + A.indicator (fun _ => (1 : ℚ)) (5 / 2, 1 / 2))
      (by
        intro A B hAB
        have hi := fun pt : ℚ × ℚ =>
          Set.indicator_le_indicator_of_subset hAB (fun _ => (zero_le_one : (0 : ℚ) ≤ 1)) pt
        exact add_le_add (add_le_add (hi _) (hi _)) (hi _))
      (by simp)
      [[⟨0, 0, 0, 0⟩, ⟨1, 0, 0, 0⟩, ⟨1, 2, 0, 0⟩, ⟨0, 2, 0, 0⟩],
       [⟨0, 1, 0, 0⟩, ⟨1, 1, 0, 0⟩, ⟨1, 3, 0, 0⟩, ⟨0, 3, 0, 0⟩]]
      [[⟨0, 0, 0, 0⟩, ⟨1, 0, 0, 0⟩, ⟨1, 2, 0, 0⟩, ⟨0, 2, 0, 0⟩]]
      [⟨0, 1, 0, 0⟩, ⟨1, 1, 0, 0⟩, ⟨1, 3, 0, 0⟩, ⟨0, 3, 0, 0⟩] [] rfl
      (by
        simp only [UnweldedRun, Sweeper.init, if_true]
        refine ⟨[⟨0, 0⟩, ⟨0, 1⟩, ⟨2, 1⟩, ⟨2, 0⟩, ⟨2, 0⟩], by simp [appendedRing, toPoint], ?_, ?_⟩
        · rw [hc0, hP0]
          simp [Set.indicator, polygonArea, ringArea, shoelace, fabs]
          norm_num
        · refine ⟨[⟨1, 0⟩, ⟨1, 1⟩, ⟨3, 1⟩, ⟨3, 0⟩, ⟨3, 0⟩], by simp [appendedRing, toPoint],
            ⟨[⟨0, 0⟩, ⟨0, 1⟩, ⟨3, 1⟩, ⟨3, 0⟩, ⟨0, 0⟩], []⟩, [], ?_, ?_, ?_, rfl, by simp, ?_⟩
          · rw [hc0, hc1]
            simp only [boxGeom]
            rw [hbox]
          · rw [hc0, hc1, hU, hP0, hP1]
            exact hunion
          · rw [hU]
            simp [Set.indicator, polygonArea, ringArea, shoelace, fabs]
            norm_num
          · simp only [List.dropLast, List.pairwise_cons, List.mem_cons, farApart, dist,
              weldThreshold]
            norm_num)
  have e1 : s1 = ⟨⟨[⟨0, 0⟩, ⟨0, 1⟩, ⟨2, 1⟩, ⟨2, 0⟩, ⟨2, 0⟩, ⟨0, 0⟩], []⟩, false⟩ := by
    simp [Sweeper.updates, Sweeper.update, Sweeper.init, appendedRing, toPoint, boxGeom,
      closeRing] at h1
    exact h1.symm
  subst e1
  have hupd : Sweeper.update boxGeom
      ⟨⟨[⟨0, 0⟩, ⟨0, 1⟩, ⟨2, 1⟩, ⟨2, 0⟩, ⟨2, 0⟩, ⟨0, 0⟩], []⟩, false⟩
      [⟨0, 1, 0, 0⟩, ⟨1, 1, 0, 0⟩, ⟨1, 3, 0, 0⟩, ⟨0, 3, 0, 0⟩] []
      = some (⟨⟨[⟨0, 0⟩, ⟨0, 1⟩, ⟨3, 1⟩, ⟨3, 0⟩, ⟨0, 0⟩], []⟩, false⟩,
          ([⟨0, 0⟩, ⟨0, 1⟩, ⟨3, 1⟩, ⟨3, 0⟩, ⟨0, 0⟩] : List boost2dPoint).map toLocation) := by
    have hb := hbox
    simp only [List.cons_append, List.nil_append] at hb
    simp [Sweeper.update, appendedRing, toPoint, boxGeom, closeRing, hb, refineLocations,
      refineRing, markPass, markClose, keepUnmarked, dist, weldThreshold]
    norm_num
  have e2 : s2.sweeped_area = ⟨[⟨0, 0⟩, ⟨0, 1⟩, ⟨3, 1⟩, ⟨3, 0⟩, ⟨0, 0⟩], []⟩ := by
    rw [hupd] at h2
    have h3 : (⟨⟨[⟨0, 0⟩, ⟨0, 1⟩, ⟨3, 1⟩, ⟨3, 0⟩, ⟨0, 0⟩], []⟩, false⟩ : Sweeper) = s2 :=
      congrArg Prod.fst (Option.some.inj h2)
    rw [← h3]
  refine ⟨_, s2, out, h1, h2, hle, ?_, ?_⟩
  · simp [polygonArea, ringArea, shoelace, fabs]
  · rw [e2]
    simp [polygonArea, ringArea, shoelace, fabs]

end Scanner
